import Mathlib

/-! # AMF0 encoder

A shallow embedding of the Go package `amf0` (`data.go`, `encoder.go`): the value model, the
type markers and the per-variant `Encode` methods, written against an abstract byte sink, and
the properties of the wire format that follow from the code.

Conventions of the embedding.

* A Go `string` is its byte sequence, a `List Byte`; `len` is `List.length`.
* A `Number` is a `float64`; the encoder only ever looks at `math.Float64bits` of it, so the
  payload is the 64-bit pattern.
* `Object` and `ECMAArray` are Go maps. A `range` over a map visits every entry once in an
  order the language leaves open, so a map is carried as the list of its entries in the order
  the `range` statement visits them.
* An `io.Writer` is a state together with a `Write` step that returns the next state and the
  error, if any. Integer conversions (`uint16(l)`, `uint32(l)`) are written as explicit
  remainders.
-/

namespace AMF0

/-- One octet of the wire. -/
abbrev Byte := Fin 256

/-! ## `data.go` -/

def TypeNumber : Byte := 0x00
def TypeBoolean : Byte := 0x01
def TypeString : Byte := 0x02
def TypeObject : Byte := 0x03
def TypeMovieClip : Byte := 0x04
def TypeNull : Byte := 0x05
def TypeUndefined : Byte := 0x06
def TypeReference : Byte := 0x07
def TypeECMAArray : Byte := 0x08
def TypeObjectEnd : Byte := 0x09
def TypeStrictArray : Byte := 0x0A
def TypeDate : Byte := 0x0B
def TypeLongString : Byte := 0x0C
def TypeUnsupported : Byte := 0x0D
def TypeRecordSet : Byte := 0x0E
def TypeXMLDocument : Byte := 0x0F
def TypeTypedObject : Byte := 0x10
def TypeAMVPlusObject : Byte := 0x11

/-- The implementations of the interface `Data`. `Number` carries the bit pattern of its
`float64`; `Object` and `ECMAArray` carry their entries in the order `range` visits them. -/
inductive Data where
  | Number (bits : Fin 18446744073709551616)
  | Boolean (b : Bool)
  | String (s : List Byte)
  | Object (entries : List (List Byte × Data))
  | Null
  | Undefined
  | ECMAArray (entries : List (List Byte × Data))
  | StrictArray (elems : List Data)

/-- The method `Type()` of each implementation of `Data`. -/
def Data.TypeMarker : Data → Byte
  | .Number _ => TypeNumber
  | .Boolean _ => TypeBoolean
  | .String _ => TypeString
  | .Object _ => TypeObject
  | .Null => TypeNull
  | .Undefined => TypeUndefined
  | .ECMAArray _ => TypeECMAArray
  | .StrictArray _ => TypeStrictArray

/-! ## The byte sink and `encoding/binary` -/

/-- An `io.Writer`. `Write s p` hands the slice `p` to the sink in state `s` and gives the next
state and the error (`none` for `nil`). The byte count Go also returns is dropped by every
caller in `encoder.go`, so it is not part of the step. -/
structure Sink (σ ε : Type) where
  Write : σ → List Byte → σ × Option ε

/-- The statement `if err := act; err != nil { return err }` followed by `rest`. -/
def orReturn {σ ε : Type} (act : σ × Option ε) (rest : σ → σ × Option ε) : σ × Option ε :=
  match act.2 with
  | some err => (act.1, some err)
  | none => rest act.1

/-- The low octet of a natural number, `byte(n)`. -/
def byteOf (n : Nat) : Byte := ⟨n % 256, Nat.mod_lt n (by decide)⟩

/-- The method `binary.BigEndian.PutUint16`. -/
def putUint16 (v : Nat) : List Byte := [byteOf (v / 256), byteOf v]

/-- The method `binary.BigEndian.PutUint32`. -/
def putUint32 (v : Nat) : List Byte :=
  [byteOf (v / 16777216), byteOf (v / 65536), byteOf (v / 256), byteOf v]

/-- The method `binary.BigEndian.PutUint64`. -/
def putUint64 (v : Nat) : List Byte :=
  [byteOf (v / 72057594037927936), byteOf (v / 281474976710656), byteOf (v / 1099511627776),
   byteOf (v / 4294967296), byteOf (v / 16777216), byteOf (v / 65536), byteOf (v / 256), byteOf v]

/-- The call `binary.Write(w, binary.BigEndian, data)` for fixed-size `data`: the value is laid
out big-endian and handed to the sink in a single `Write`, whose error is returned as is. -/
def binaryWrite {σ ε : Type} (W : Sink σ ε) (layout : List Byte) (s : σ) : σ × Option ε :=
  W.Write s layout

def MaxUint16 : Nat := 65535

/-! ## `encoder.go` -/

/-- The method `func (t Type) encode(w io.Writer) error`. -/
def encodeMarker {σ ε : Type} (W : Sink σ ε) (t : Byte) (s : σ) : σ × Option ε :=
  binaryWrite W [t] s

/-- The function `encodeUTF8(s string, w io.Writer)`; `str` is the Go parameter `s`. -/
def encodeUTF8 {σ ε : Type} (W : Sink σ ε) (str : List Byte) (s : σ) : σ × Option ε :=
  let length : Nat := if str.length ≥ MaxUint16 then MaxUint16 else str.length % 65536
  orReturn (binaryWrite W (putUint16 length) s) fun s =>
  orReturn (W.Write s (str.take length)) fun s =>
  (s, none)

def booleanFalse : List Byte := [0x00]
def booleanTrue : List Byte := [0x01]

mutual
/-- The methods `Encode(w io.Writer) error` of the eight implementations of `Data`. -/
def Data.Encode {σ ε : Type} (W : Sink σ ε) : Data → σ → σ × Option ε
  | .Number p, s =>
    orReturn (encodeMarker W (Data.Number p).TypeMarker s) fun s =>
    binaryWrite W (putUint64 p.val) s
  | .Boolean p, s =>
    orReturn (encodeMarker W (Data.Boolean p).TypeMarker s) fun s =>
    let val := if p then booleanTrue else booleanFalse
    orReturn (W.Write s val) fun s =>
    (s, none)
  | .String p, s =>
    let l := p.length
    orReturn
      (if l ≤ MaxUint16 then
        orReturn (encodeMarker W (Data.String p).TypeMarker s) fun s =>
        binaryWrite W (putUint16 (l % 65536)) s
      else
        orReturn (encodeMarker W TypeLongString s) fun s =>
        binaryWrite W (putUint32 (l % 4294967296)) s) fun s =>
    orReturn (W.Write s p) fun s =>
    (s, none)
  | .Object p, s =>
    orReturn (encodeMarker W (Data.Object p).TypeMarker s) fun s =>
    orReturn (encodeEntries W p s) fun s =>
    orReturn (encodeUTF8 W [] s) fun s =>
    encodeMarker W TypeObjectEnd s
  | .Null, s => encodeMarker W Data.Null.TypeMarker s
  | .Undefined, s => encodeMarker W Data.Undefined.TypeMarker s
  | .ECMAArray p, s =>
    orReturn (encodeMarker W (Data.ECMAArray p).TypeMarker s) fun s =>
    orReturn (binaryWrite W (putUint32 (p.length % 4294967296)) s) fun s =>
    orReturn (encodeEntries W p s) fun s =>
    (s, none)
  | .StrictArray p, s =>
    orReturn (encodeMarker W (Data.StrictArray p).TypeMarker s) fun s =>
    orReturn (binaryWrite W (putUint32 (p.length % 4294967296)) s) fun s =>
    orReturn (encodeElems W p s) fun s =>
    (s, none)
/-- The loop `for name, data := range p` of `Object.Encode` and `ECMAArray.Encode`, over the
entries in the order `range` visits them. -/
def encodeEntries {σ ε : Type} (W : Sink σ ε) : List (List Byte × Data) → σ → σ × Option ε
  | [], s => (s, none)
  | (name, data) :: rest, s =>
    orReturn (encodeUTF8 W name s) fun s =>
    orReturn (Data.Encode W data s) fun s =>
    encodeEntries W rest s
/-- The loop `for _, data := range p` of `StrictArray.Encode`. -/
def encodeElems {σ ε : Type} (W : Sink σ ε) : List Data → σ → σ × Option ε
  | [], s => (s, none)
  | data :: rest, s =>
    orReturn (Data.Encode W data s) fun s =>
    encodeElems W rest s
end

/-! ## Sinks used to observe the encoder -/

/-- A `bytes.Buffer`, the sink of the package's tests: the state is everything written so far,
every `Write` appends its slice and is accepted. -/
def Buffer : Sink (List Byte) Unit := ⟨fun s p => (s ++ p, none)⟩

/-- The bytes `Encode` leaves in an empty `bytes.Buffer`. -/
def Data.bytes (d : Data) : List Byte := (Data.Encode Buffer d []).1

/-- The bytes `encodeUTF8` leaves in an empty `bytes.Buffer`. -/
def utf8Header (name : List Byte) : List Byte := (encodeUTF8 Buffer name []).1

/-- The value of a byte sequence read as a big-endian unsigned integer. -/
def beValue (bs : List Byte) : Nat := bs.foldl (fun acc b => acc * 256 + b.val) 0

/-! ## The sequence of writes of one `Encode` call -/

/-- Hand the slices of a list to the sink one after the other, returning at the first one the
sink rejects. -/
def writeAll {σ ε : Type} (W : Sink σ ε) : List (List Byte) → σ → σ × Option ε
  | [], s => (s, none)
  | p :: rest, s => orReturn (W.Write s p) fun s => writeAll W rest s

/-- The two slices `encodeUTF8` hands to the sink when neither is rejected. -/
def utf8Writes (str : List Byte) : List (List Byte) :=
  [putUint16 (if str.length ≥ MaxUint16 then MaxUint16 else str.length % 65536),
   str.take (if str.length ≥ MaxUint16 then MaxUint16 else str.length % 65536)]

mutual
/-- The slices `Encode` hands to the sink, in order, when none is rejected. -/
def Data.writes : Data → List (List Byte)
  | .Number p => [[TypeNumber], putUint64 p.val]
  | .Boolean p => [[TypeBoolean], if p then booleanTrue else booleanFalse]
  | .String p =>
    (if p.length ≤ MaxUint16 then [[TypeString], putUint16 (p.length % 65536)]
     else [[TypeLongString], putUint32 (p.length % 4294967296)]) ++ [p]
  | .Object p => [TypeObject] :: (entriesWrites p ++ (utf8Writes [] ++ [[TypeObjectEnd]]))
  | .Null => [[TypeNull]]
  | .Undefined => [[TypeUndefined]]
  | .ECMAArray p => [TypeECMAArray] :: putUint32 (p.length % 4294967296) :: entriesWrites p
  | .StrictArray p => [TypeStrictArray] :: putUint32 (p.length % 4294967296) :: elemsWrites p
/-- The slices written by the loop over the entries of a map. -/
def entriesWrites : List (List Byte × Data) → List (List Byte)
  | [] => []
  | (name, data) :: rest => utf8Writes name ++ (data.writes ++ entriesWrites rest)
/-- The slices written by the loop over the elements of an array. -/
def elemsWrites : List Data → List (List Byte)
  | [] => []
  | data :: rest => data.writes ++ elemsWrites rest
end

/-- The bytes of one entry of a map on the wire: the header of its name, then its value. -/
def entrySegment (e : List Byte × Data) : List Byte := utf8Header e.1 ++ e.2.bytes

/-! ## The journal of a sink -/

/-- The sink `W` with a journal. Every `Write` is passed on to `W` unchanged, and the slice and
the answer of `W` are recorded at the end of the journal. -/
def Sink.logged {σ ε : Type} (W : Sink σ ε) : Sink (σ × List (List Byte × Option ε)) ε :=
  ⟨fun s p => (((W.Write s.1 p).1, s.2 ++ [(p, (W.Write s.1 p).2)]), (W.Write s.1 p).2)⟩

/-- The error of the first rejected write of a journal, `none` when every write was accepted. -/
def firstRejected {ε : Type} (journal : List (List Byte × Option ε)) : Option ε :=
  journal.findSome? fun w => w.2

/-! ## One value under two enumerations -/

mutual
/-- The relation `d.SameValue d'`: the tree `d'` is the value `d` with the entries of its maps,
at every depth, enumerated in a possibly different order. Nothing else may differ. -/
def Data.SameValue : Data → Data → Prop
  | .Number v, d' => d' = .Number v
  | .Boolean v, d' => d' = .Boolean v
  | .String v, d' => d' = .String v
  | .Object p, d' => ∃ q r, SameEntries p q ∧ q.Perm r ∧ d' = .Object r
  | .Null, d' => d' = .Null
  | .Undefined, d' => d' = .Undefined
  | .ECMAArray p, d' => ∃ q r, SameEntries p q ∧ q.Perm r ∧ d' = .ECMAArray r
  | .StrictArray p, d' => ∃ q, SameElems p q ∧ d' = .StrictArray q
/-- Entry by entry, the same names with the same values. -/
def SameEntries : List (List Byte × Data) → List (List Byte × Data) → Prop
  | [], q => q = []
  | (name, d) :: rest, q =>
    ∃ d' rest', d.SameValue d' ∧ SameEntries rest rest' ∧ q = (name, d') :: rest'
/-- Element by element, the same values. -/
def SameElems : List Data → List Data → Prop
  | [], q => q = []
  | d :: rest, q => ∃ d' rest', d.SameValue d' ∧ SameElems rest rest' ∧ q = d' :: rest'
end

/-- The leaf variants: Number, Boolean, String, Null, Undefined. -/
def Data.isLeaf : Data → Bool
  | .Number _ => true
  | .Boolean _ => true
  | .String _ => true
  | .Null => true
  | .Undefined => true
  | _ => false

mutual
/-- No Object or ECMAArray with two or more members occurs in the tree, at any depth. -/
def Data.fixedOrder : Data → Bool
  | .Object p => decide (p.length ≤ 1) && entriesFixedOrder p
  | .ECMAArray p => decide (p.length ≤ 1) && entriesFixedOrder p
  | .StrictArray p => elemsFixedOrder p
  | _ => true
def entriesFixedOrder : List (List Byte × Data) → Bool
  | [] => true
  | (_, d) :: rest => d.fixedOrder && entriesFixedOrder rest
def elemsFixedOrder : List Data → Bool
  | [] => true
  | d :: rest => d.fixedOrder && elemsFixedOrder rest
end

/-! ## The first byte on the wire -/

/-- The marker `Encode` writes first: `Type()` of the value, except in the long branch of
`String.Encode`, which writes `TypeLongString`. -/
def Data.wireMarker : Data → Byte
  | .String p => if p.length ≤ MaxUint16 then TypeString else TypeLongString
  | d => d.TypeMarker

/-! ## Size bounds -/

mutual
/-- Every String of the tree is shorter than 2^32 bytes, every member name is at most 65535
bytes long, every ECMAArray and StrictArray has fewer than 2^32 entries. -/
def Data.Bounded : Data → Bool
  | .String p => decide (p.length < 4294967296)
  | .Object p => entriesBounded p
  | .ECMAArray p => decide (p.length < 4294967296) && entriesBounded p
  | .StrictArray p => decide (p.length < 4294967296) && elemsBounded p
  | _ => true
def entriesBounded : List (List Byte × Data) → Bool
  | [] => true
  | (name, d) :: rest => decide (name.length ≤ 65535) && (d.Bounded && entriesBounded rest)
def elemsBounded : List Data → Bool
  | [] => true
  | d :: rest => d.Bounded && elemsBounded rest
end

/-! ## `encode_test.go` -/

/-- The ECMAArray of `TestECMAArrayEncode`, its members enumerated "test" first. -/
def testECMAArray : Data :=
  .ECMAArray [([0x74, 0x65, 0x73, 0x74], .Boolean true),
    ([0x74, 0x65, 0x73, 0x74, 0x32], .Boolean false)]

/-- The ECMAArray of `TestECMAArrayEncode`, its members enumerated "test2" first. -/
def testECMAArraySwapped : Data :=
  .ECMAArray [([0x74, 0x65, 0x73, 0x74, 0x32], .Boolean false),
    ([0x74, 0x65, 0x73, 0x74], .Boolean true)]

/-- The slice `expected1` of `TestECMAArrayEncode`. -/
def expected1 : List Byte :=
  [0x08, 0x00, 0x00, 0x00, 0x02, 0x00, 0x04, 0x74, 0x65, 0x73, 0x74, 0x01, 0x01,
   0x00, 0x05, 0x74, 0x65, 0x73, 0x74, 0x32, 0x01, 0x00]

/-- The slice `expected2` of `TestECMAArrayEncode`. -/
def expected2 : List Byte :=
  [0x08, 0x00, 0x05, 0x74, 0x65, 0x73, 0x74, 0x32, 0x01, 0x00, 0x00, 0x00, 0x00, 0x02,
   0x00, 0x04, 0x74, 0x65, 0x73, 0x74, 0x01, 0x01]

/-! ## A sink that fails -/

/-- A sink that numbers the writes it is handed from 0, takes the first `k` into its buffer and
rejects every later one, giving the number of the write as the error. -/
def rejectFrom (k : Nat) : Sink (Nat × List Byte) Nat :=
  ⟨fun s p => if s.1 < k then ((s.1 + 1, s.2 ++ p), none) else ((s.1 + 1, s.2), some s.1)⟩

/-! ## Basic lemmas -/

section Lemmas

variable {σ ε : Type}

theorem orReturn_pure (act : σ × Option ε) : orReturn act (fun s => (s, none)) = act := by
  rcases act with ⟨s, _ | e⟩ <;> rfl

theorem orReturn_assoc (act : σ × Option ε) (f g : σ → σ × Option ε) :
    orReturn (orReturn act f) g = orReturn act (fun s => orReturn (f s) g) := by
  rcases act with ⟨s, _ | e⟩ <;> rfl

theorem writeAll_append (W : Sink σ ε) (a b : List (List Byte)) (s : σ) :
    writeAll W (a ++ b) s = orReturn (writeAll W a s) (writeAll W b) := by
  induction a generalizing s with
  | nil => rfl
  | cons p rest ih =>
    have h : writeAll W (p :: rest ++ b) s
        = orReturn (W.Write s p) fun s => writeAll W (rest ++ b) s := rfl
    rw [h]
    simp only [writeAll, orReturn_assoc, ih]

theorem writeAll_append_fun (W : Sink σ ε) (a b : List (List Byte)) :
    writeAll W (a ++ b) = fun s => orReturn (writeAll W a s) (writeAll W b) :=
  funext (writeAll_append W a b)

theorem encodeUTF8_eq_writeAll (W : Sink σ ε) (str : List Byte) (s : σ) :
    encodeUTF8 W str s = writeAll W (utf8Writes str) s := by
  simp only [encodeUTF8, utf8Writes, writeAll, binaryWrite]

mutual
/-- On every sink, `Encode` behaves as the issue of its slices in order up to the first
rejected one. -/
theorem Data.Encode_eq_writeAll (W : Sink σ ε) :
    ∀ (d : Data) (s : σ), Data.Encode W d s = writeAll W d.writes s
  | .Number p, s => by
    simp only [Data.Encode, Data.writes, writeAll, binaryWrite, encodeMarker, Data.TypeMarker,
      orReturn_pure]
  | .Boolean p, s => by
    simp only [Data.Encode, Data.writes, writeAll, binaryWrite, encodeMarker, Data.TypeMarker]
  | .String p, s => by
    simp only [Data.Encode, Data.writes, writeAll_append, binaryWrite, encodeMarker,
      Data.TypeMarker]
    split <;> simp only [writeAll, orReturn_pure, orReturn_assoc]
  | .Object p, s => by
    have h := fun s => encodeEntries_eq_writeAll W p s
    simp only [Data.Encode, Data.writes, writeAll, writeAll_append, binaryWrite, encodeMarker,
      Data.TypeMarker, h, encodeUTF8_eq_writeAll, orReturn_pure, orReturn_assoc]
  | .Null, s => by
    simp only [Data.Encode, Data.writes, writeAll, binaryWrite, encodeMarker, Data.TypeMarker,
      orReturn_pure]
  | .Undefined, s => by
    simp only [Data.Encode, Data.writes, writeAll, binaryWrite, encodeMarker, Data.TypeMarker,
      orReturn_pure]
  | .ECMAArray p, s => by
    have h := fun s => encodeEntries_eq_writeAll W p s
    simp only [Data.Encode, Data.writes, writeAll, binaryWrite, encodeMarker,
      Data.TypeMarker, h, orReturn_pure]
  | .StrictArray p, s => by
    have h := fun s => encodeElems_eq_writeAll W p s
    simp only [Data.Encode, Data.writes, writeAll, binaryWrite, encodeMarker,
      Data.TypeMarker, h, orReturn_pure]
theorem encodeEntries_eq_writeAll (W : Sink σ ε) :
    ∀ (p : List (List Byte × Data)) (s : σ), encodeEntries W p s = writeAll W (entriesWrites p) s
  | [], s => by simp only [encodeEntries, entriesWrites, writeAll]
  | (name, data) :: rest, s => by
    have h1 := fun s => Data.Encode_eq_writeAll W data s
    have h2 := fun s => encodeEntries_eq_writeAll W rest s
    simp only [encodeEntries, entriesWrites, writeAll_append, writeAll_append_fun, h1, h2,
      encodeUTF8_eq_writeAll, orReturn_assoc]
theorem encodeElems_eq_writeAll (W : Sink σ ε) :
    ∀ (p : List Data) (s : σ), encodeElems W p s = writeAll W (elemsWrites p) s
  | [], s => by simp only [encodeElems, elemsWrites, writeAll]
  | data :: rest, s => by
    have h1 := fun s => Data.Encode_eq_writeAll W data s
    have h2 := fun s => encodeElems_eq_writeAll W rest s
    simp only [encodeElems, elemsWrites, writeAll_append, h1, h2]
end

/-- A `bytes.Buffer` accepts every slice and holds their concatenation after what it held. -/
theorem writeAll_Buffer (ws : List (List Byte)) (b : List Byte) :
    writeAll Buffer ws b = (b ++ ws.flatten, none) := by
  induction ws generalizing b with
  | nil => simp [writeAll]
  | cons p rest ih =>
    have h : writeAll Buffer (p :: rest) b = writeAll Buffer rest (b ++ p) := rfl
    rw [h, ih]
    simp

theorem Data.bytes_eq (d : Data) : d.bytes = d.writes.flatten := by
  simp [Data.bytes, Data.Encode_eq_writeAll, writeAll_Buffer]

theorem utf8Header_eq (str : List Byte) : utf8Header str = (utf8Writes str).flatten := by
  simp [utf8Header, encodeUTF8_eq_writeAll, writeAll_Buffer]

/-- Encoding into a `bytes.Buffer` appends the encoding to what the buffer held. -/
theorem Data.Encode_Buffer (d : Data) (b : List Byte) :
    Data.Encode Buffer d b = (b ++ d.bytes, none) := by
  rw [Data.bytes_eq, Data.Encode_eq_writeAll, writeAll_Buffer]

theorem encodeUTF8_Buffer (str : List Byte) (b : List Byte) :
    encodeUTF8 Buffer str b = (b ++ utf8Header str, none) := by
  rw [utf8Header_eq, encodeUTF8_eq_writeAll, writeAll_Buffer]

theorem entriesWrites_flatten (p : List (List Byte × Data)) :
    (entriesWrites p).flatten = (p.map entrySegment).flatten := by
  induction p with
  | nil => simp [entriesWrites]
  | cons e rest ih =>
    obtain ⟨name, data⟩ := e
    simp [entriesWrites, entrySegment, ih, utf8Header_eq, Data.bytes_eq]

theorem elemsWrites_flatten (p : List Data) :
    (elemsWrites p).flatten = (p.map Data.bytes).flatten := by
  induction p with
  | nil => simp [elemsWrites]
  | cons d rest ih => simp [elemsWrites, ih, Data.bytes_eq]

theorem beValue_putUint16 (v : Nat) (h : v < 65536) : beValue (putUint16 v) = v := by
  simp only [beValue, putUint16, byteOf, List.foldl]
  omega

theorem beValue_putUint32 (v : Nat) (h : v < 4294967296) : beValue (putUint32 v) = v := by
  simp only [beValue, putUint32, byteOf, List.foldl]
  omega

theorem beValue_putUint64 (v : Nat) (h : v < 18446744073709551616) :
    beValue (putUint64 v) = v := by
  simp only [beValue, putUint64, byteOf, List.foldl]
  omega

end Lemmas

/-! ## `String.Encode` -/

theorem String_bytes (p : List Byte) :
    (Data.String p).bytes =
      (if p.length ≤ 65535 then [0x02] ++ putUint16 (p.length % 65536)
       else [0x0C] ++ putUint32 (p.length % 4294967296)) ++ p := by
  rw [Data.bytes_eq]
  simp only [Data.writes, MaxUint16, TypeString, TypeLongString]
  split <;> simp

/-- C1: a String of byte length `L ≤ 65535` is written to an accepting sink as the byte 0x02,
then `L` as two bytes big-endian, then its `L` bytes unchanged, `3 + L` bytes in all; the empty
string gives `02 00 00` and "foo" gives `02 00 03 66 6f 6f`. -/
theorem String_Encode_short (p b : List Byte) (h : p.length ≤ 65535) :
    Data.Encode Buffer (.String p) b = (b ++ ([0x02] ++ putUint16 p.length ++ p), none)
    ∧ (putUint16 p.length).length = 2
    ∧ beValue (putUint16 p.length) = p.length
    ∧ (Data.String p).bytes.length = 3 + p.length
    ∧ (Data.String []).bytes = [0x02, 0x00, 0x00]
    ∧ (Data.String [0x66, 0x6f, 0x6f]).bytes = [0x02, 0x00, 0x03, 0x66, 0x6f, 0x6f] := by
  have hb : (Data.String p).bytes = [0x02] ++ putUint16 p.length ++ p := by
    rw [String_bytes, if_pos h, Nat.mod_eq_of_lt (by omega)]
  refine ⟨?_, rfl, beValue_putUint16 _ (by omega), ?_, by decide, by decide⟩
  · rw [Data.Encode_Buffer, hb]
  · rw [hb]
    simp [putUint16]
    omega

theorem String_Encode_short_witness :
    Data.Encode Buffer (.String [0x46, 0x4f, 0x4f, 0x20, 0x42, 0x41, 0x52]) []
      = ([] ++ ([0x02] ++ putUint16 7 ++ [0x46, 0x4f, 0x4f, 0x20, 0x42, 0x41, 0x52]), none) :=
  (String_Encode_short [0x46, 0x4f, 0x4f, 0x20, 0x42, 0x41, 0x52] [] (by decide)).1

/-- C2, as the code has it: a String of byte length `L` with `65535 < L < 2^32` is written to
an accepting sink as the byte 0x0C, then `L` as four bytes big-endian, then all its `L` bytes,
`5 + L` bytes in all. Whatever `L > 65535` is, the four length bytes hold `L mod 2^32` and all
`L` bytes follow, none dropped. -/
theorem String_Encode_long (p b : List Byte) (h : 65535 < p.length) :
    Data.Encode Buffer (.String p) b
      = (b ++ ([0x0C] ++ putUint32 (p.length % 4294967296) ++ p), none)
    ∧ (putUint32 (p.length % 4294967296)).length = 4
    ∧ (Data.String p).bytes.length = 5 + p.length
    ∧ (p.length < 4294967296 →
        Data.Encode Buffer (.String p) b = (b ++ ([0x0C] ++ putUint32 p.length ++ p), none)
        ∧ beValue (putUint32 p.length) = p.length) := by
  have hb : (Data.String p).bytes = [0x0C] ++ putUint32 (p.length % 4294967296) ++ p := by
    rw [String_bytes, if_neg (by omega)]
  refine ⟨?_, rfl, ?_, ?_⟩
  · rw [Data.Encode_Buffer, hb]
  · rw [hb]
    simp [putUint32]
    omega
  · intro h32
    refine ⟨?_, beValue_putUint32 _ h32⟩
    rw [Data.Encode_Buffer, hb, Nat.mod_eq_of_lt h32]

theorem String_Encode_long_witness :
    65535 < (List.replicate 90000 (0x61 : Byte)).length
    ∧ (List.replicate 90000 (0x61 : Byte)).length < 4294967296
    ∧ Data.Encode Buffer (.String (List.replicate 90000 0x61)) []
      = ([] ++ ([0x0C] ++ putUint32 (List.replicate 90000 (0x61 : Byte)).length
          ++ List.replicate 90000 0x61), none)
    ∧ putUint32 90000 = [0x00, 0x01, 0x5F, 0x90] :=
  have h1 : 65535 < (List.replicate 90000 (0x61 : Byte)).length := by
    rw [List.length_replicate]; omega
  have h2 : (List.replicate 90000 (0x61 : Byte)).length < 4294967296 := by
    rw [List.length_replicate]; omega
  ⟨h1, h2, ((String_Encode_long (List.replicate 90000 0x61) [] h1).2.2.2 h2).1, by decide⟩

/-- C2 fails as stated: the string of 2^32 zero bytes is longer than 65535 bytes, and the four
length bytes written after 0x0C are `00 00 00 00`, whose value is 0 and not the byte length. -/
theorem String_Encode_long_counterexample :
    65535 < (List.replicate 4294967296 (0 : Byte)).length
    ∧ (Data.String (List.replicate 4294967296 0)).bytes
        = [0x0C, 0x00, 0x00, 0x00, 0x00] ++ List.replicate 4294967296 0
    ∧ beValue [0x00, 0x00, 0x00, 0x00] ≠ (List.replicate 4294967296 (0 : Byte)).length := by
  have hlen : (List.replicate 4294967296 (0 : Byte)).length = 4294967296 :=
    List.length_replicate _ _
  have hfield : [0x0C] ++ putUint32 (4294967296 % 4294967296)
      = ([0x0C, 0x00, 0x00, 0x00, 0x00] : List Byte) := by decide
  refine ⟨by omega, ?_, ?_⟩
  · rw [String_bytes, hlen, if_neg (by omega), hfield]
  · rw [hlen]
    decide

/-! ## `Number.Encode` -/

/-- C3: a Number with bit pattern `v` is written to an accepting sink as 9 bytes, 0x00 and then
the 8 bytes of `v` most significant first; the last 8 bytes read back big-endian give `v`. The
pattern 0x3FF0000000000001 gives `00 3f f0 00 00 00 00 00 01`. -/
theorem Number_Encode_layout (v : Fin 18446744073709551616) (b : List Byte) :
    Data.Encode Buffer (.Number v) b = (b ++ ([0x00] ++ putUint64 v.val), none)
    ∧ (Data.Number v).bytes.length = 9
    ∧ (putUint64 v.val).length = 8
    ∧ (Data.Number v).bytes.drop ((Data.Number v).bytes.length - 8) = putUint64 v.val
    ∧ beValue ((Data.Number v).bytes.drop ((Data.Number v).bytes.length - 8)) = v.val
    ∧ (Data.Number 0x3FF0000000000001).bytes
        = [0x00, 0x3f, 0xf0, 0x00, 0x00, 0x00, 0x00, 0x00, 0x01] := by
  have hb : (Data.Number v).bytes = [0x00] ++ putUint64 v.val := by
    rw [Data.bytes_eq]
    rfl
  refine ⟨?_, ?_, rfl, ?_, ?_, by decide⟩
  · rw [Data.Encode_Buffer, hb]
  · rw [hb]
    rfl
  · rw [hb]
    rfl
  · rw [hb]
    exact beValue_putUint64 v.val v.isLt

/-! ## `Object.Encode`, `ECMAArray.Encode`, `StrictArray.Encode` -/

theorem Object_bytes (p : List (List Byte × Data)) :
    (Data.Object p).bytes = [0x03] ++ (p.map entrySegment).flatten ++ [0x00, 0x00, 0x09] := by
  rw [Data.bytes_eq]
  have h : (utf8Writes []).flatten ++ ([TypeObjectEnd] ++ ([] : List (List Byte)).flatten)
      = [0x00, 0x00, 0x09] := by decide
  simp only [Data.writes, List.flatten_cons, List.flatten_append, entriesWrites_flatten,
    List.append_assoc, h]
  rfl

theorem ECMAArray_bytes (p : List (List Byte × Data)) :
    (Data.ECMAArray p).bytes
      = [0x08] ++ putUint32 (p.length % 4294967296) ++ (p.map entrySegment).flatten := by
  rw [Data.bytes_eq]
  simp only [Data.writes, List.flatten_cons, entriesWrites_flatten, List.append_assoc]
  rfl

theorem StrictArray_bytes (p : List Data) :
    (Data.StrictArray p).bytes
      = [0x0A] ++ putUint32 (p.length % 4294967296) ++ (p.map Data.bytes).flatten := by
  rw [Data.bytes_eq]
  simp only [Data.writes, List.flatten_cons, elemsWrites_flatten, List.append_assoc]
  rfl

/-- C4: an Object whose members are enumerated in the order of `p` is written to an accepting
sink as 0x03, then for each member in that order the header of its name followed by the
encoding of its value, then `00 00 09` as the last three bytes. The empty Object gives
`03 00 00 09`; when the last member is itself an Object the output ends in
`00 00 09 00 00 09`. -/
theorem Object_Encode_layout (p : List (List Byte × Data)) (b : List Byte) :
    Data.Encode Buffer (.Object p) b
      = (b ++ ([0x03] ++ (p.map fun e => utf8Header e.1 ++ e.2.bytes).flatten
          ++ [0x00, 0x00, 0x09]), none)
    ∧ [0x00, 0x00, 0x09] <:+ (Data.Object p).bytes
    ∧ (Data.Object []).bytes = [0x03, 0x00, 0x00, 0x09]
    ∧ (∀ (name : List Byte) (inner : List (List Byte × Data)),
        [0x00, 0x00, 0x09, 0x00, 0x00, 0x09]
          <:+ (Data.Object (p ++ [(name, .Object inner)])).bytes)
    ∧ (Data.Object [([0x74, 0x65, 0x73, 0x74], .Object [])]).bytes
        = [0x03, 0x00, 0x04, 0x74, 0x65, 0x73, 0x74, 0x03, 0x00, 0x00, 0x09, 0x00, 0x00, 0x09] := by
  refine ⟨?_, ?_, by decide, ?_, by decide⟩
  · rw [Data.Encode_Buffer, Object_bytes]
    rfl
  · rw [Object_bytes]
    exact List.suffix_append _ _
  · intro name inner
    rw [Object_bytes, List.map_append, List.flatten_append]
    simp only [List.map_cons, List.map_nil, List.flatten_cons, List.flatten_nil,
      List.append_nil, entrySegment, Object_bytes inner]
    refine ⟨[0x03] ++ (p.map entrySegment).flatten
      ++ (utf8Header name ++ ([0x03] ++ (inner.map entrySegment).flatten)), ?_⟩
    simp

/-- C5: an ECMAArray with `N < 2^32` members enumerated in the order of `p` is written to an
accepting sink as 0x08, then `N` as four bytes big-endian, then for each member in that order
the header of its name followed by the encoding of its value, and nothing more. The empty
ECMAArray gives `08 00 00 00 00`. -/
theorem ECMAArray_Encode_layout (p : List (List Byte × Data)) (b : List Byte)
    (h : p.length < 4294967296) :
    Data.Encode Buffer (.ECMAArray p) b
      = (b ++ ([0x08] ++ putUint32 p.length
          ++ (p.map fun e => utf8Header e.1 ++ e.2.bytes).flatten), none)
    ∧ (putUint32 p.length).length = 4
    ∧ beValue (putUint32 p.length) = p.length
    ∧ (Data.ECMAArray []).bytes = [0x08, 0x00, 0x00, 0x00, 0x00] := by
  refine ⟨?_, rfl, beValue_putUint32 _ h, by decide⟩
  rw [Data.Encode_Buffer, ECMAArray_bytes, Nat.mod_eq_of_lt h]
  rfl

theorem ECMAArray_Encode_layout_witness :
    Data.Encode Buffer (.ECMAArray [([0x74, 0x65, 0x73, 0x74], .Boolean true)]) []
      = ([0x08, 0x00, 0x00, 0x00, 0x01, 0x00, 0x04, 0x74, 0x65, 0x73, 0x74, 0x01, 0x01], none) :=
  (ECMAArray_Encode_layout [([0x74, 0x65, 0x73, 0x74], .Boolean true)] [] (by decide)).1.trans
    (by decide)

/-- C6: a StrictArray with `N < 2^32` elements is written to an accepting sink as 0x0A, then
`N` as four bytes big-endian, then the encodings of the elements in array order, index 0
first, with nothing between or after them. The empty StrictArray gives `0a 00 00 00 00`. -/
theorem StrictArray_Encode_layout (p : List Data) (b : List Byte)
    (h : p.length < 4294967296) :
    Data.Encode Buffer (.StrictArray p) b
      = (b ++ ([0x0A] ++ putUint32 p.length ++ (p.map Data.bytes).flatten), none)
    ∧ (putUint32 p.length).length = 4
    ∧ beValue (putUint32 p.length) = p.length
    ∧ (Data.StrictArray []).bytes = [0x0A, 0x00, 0x00, 0x00, 0x00] := by
  refine ⟨?_, rfl, beValue_putUint32 _ h, by decide⟩
  rw [Data.Encode_Buffer, StrictArray_bytes, Nat.mod_eq_of_lt h]

theorem StrictArray_Encode_layout_witness :
    Data.Encode Buffer (.StrictArray [.Boolean true, .Boolean false]) []
      = ([0x0A, 0x00, 0x00, 0x00, 0x02, 0x01, 0x01, 0x01, 0x00], none) :=
  (StrictArray_Encode_layout [.Boolean true, .Boolean false] [] (by decide)).1.trans (by decide)

/-! ## `encodeUTF8` -/

theorem utf8Header_bytes (str : List Byte) :
    utf8Header str = putUint16 (min str.length 65535) ++ str.take (min str.length 65535) := by
  rw [utf8Header_eq]
  have h : (if str.length ≥ MaxUint16 then MaxUint16 else str.length % 65536)
      = min str.length 65535 := by
    simp only [MaxUint16]
    split <;> omega
  simp [utf8Writes, h]

/-- C7: for a name of byte length `L`, `encodeUTF8` writes to an accepting sink `L` as two bytes
big-endian and all `L` bytes when `L ≤ 65535`, and `ff ff` and only the first 65535 bytes when
`L > 65535`; in both cases `2 + min L 65535` bytes, the length field being the number of name
bytes written. -/
theorem encodeUTF8_layout (str b : List Byte) :
    encodeUTF8 Buffer str b
      = (b ++ (putUint16 (min str.length 65535) ++ str.take (min str.length 65535)), none)
    ∧ (str.length ≤ 65535 → encodeUTF8 Buffer str b = (b ++ (putUint16 str.length ++ str), none))
    ∧ (65535 < str.length →
        encodeUTF8 Buffer str b = (b ++ ([0xFF, 0xFF] ++ str.take 65535), none))
    ∧ (utf8Header str).length = 2 + min str.length 65535
    ∧ (utf8Header str).take 2 = putUint16 (min str.length 65535)
    ∧ (utf8Header str).drop 2 = str.take (min str.length 65535)
    ∧ beValue ((utf8Header str).take 2) = ((utf8Header str).drop 2).length := by
  have hb := utf8Header_bytes str
  have hlen : (str.take (min str.length 65535)).length = min str.length 65535 := by
    rw [List.length_take]
    omega
  have htake : (utf8Header str).take 2 = putUint16 (min str.length 65535) := by
    rw [hb]
    rfl
  have hdrop : (utf8Header str).drop 2 = str.take (min str.length 65535) := by
    rw [hb]
    rfl
  refine ⟨?_, ?_, ?_, ?_, htake, hdrop, ?_⟩
  · rw [encodeUTF8_Buffer, hb]
  · intro h
    rw [encodeUTF8_Buffer, hb, Nat.min_eq_left h, List.take_length]
  · intro h
    rw [encodeUTF8_Buffer, hb, Nat.min_eq_right (by omega)]
    rfl
  · rw [hb, List.length_append, hlen]
    rfl
  · rw [htake, hdrop, hlen]
    exact beValue_putUint16 _ (by omega)

theorem encodeUTF8_layout_witness :
    encodeUTF8 Buffer [0x74, 0x65, 0x73, 0x74] [] = ([0x00, 0x04, 0x74, 0x65, 0x73, 0x74], none)
    ∧ 65535 < (List.replicate 65536 (0x61 : Byte)).length
    ∧ encodeUTF8 Buffer (List.replicate 65536 0x61) []
        = ([] ++ ([0xFF, 0xFF] ++ (List.replicate 65536 (0x61 : Byte)).take 65535), none) :=
  have h : 65535 < (List.replicate 65536 (0x61 : Byte)).length := by
    rw [List.length_replicate]; omega
  ⟨((encodeUTF8_layout [0x74, 0x65, 0x73, 0x74] []).2.1 (by decide)).trans (by decide), h,
   (encodeUTF8_layout (List.replicate 65536 0x61) []).2.2.1 h⟩

/-! ## Errors -/

section Errors

variable {σ ε : Type}

/-- Running a list of writes on the journalled sink: the underlying sink goes through the same
states and gives the same answer, and the answer is the first rejection of the new part of the
journal. -/
theorem writeAll_logged (W : Sink σ ε) (ws : List (List Byte)) (s : σ)
    (L : List (List Byte × Option ε)) :
    ∃ J, writeAll W.logged ws (s, L) = (((writeAll W ws s).1, L ++ J), (writeAll W ws s).2)
      ∧ firstRejected J = (writeAll W ws s).2 := by
  induction ws generalizing s L with
  | nil => exact ⟨[], by simp [writeAll], rfl⟩
  | cons p rest ih =>
    cases hw : (W.Write s p).2 with
    | some e =>
      refine ⟨[(p, some e)], ?_, ?_⟩
      · simp [writeAll, orReturn, Sink.logged, hw]
      · simp [writeAll, orReturn, firstRejected, hw]
    | none =>
      obtain ⟨J, hJ, hf⟩ := ih (W.Write s p).1 (L ++ [(p, none)])
      refine ⟨(p, none) :: J, ?_, ?_⟩
      · have hlw : W.logged.Write (s, L) p = (((W.Write s p).1, L ++ [(p, none)]), none) := by
          simp only [Sink.logged, hw]
        have step : writeAll W.logged (p :: rest) (s, L)
            = orReturn (W.logged.Write (s, L) p) (fun s => writeAll W.logged rest s) := rfl
        rw [step, hlw]
        show writeAll W.logged rest ((W.Write s p).1, L ++ [(p, none)]) = _
        rw [hJ]
        simp only [writeAll, orReturn, hw, List.append_assoc, List.singleton_append]
      · simp only [writeAll, orReturn, hw, ← hf]
        simp [firstRejected]

theorem writeAll_accepting (W : Sink σ ε) (hW : ∀ s p, (W.Write s p).2 = none)
    (ws : List (List Byte)) (s : σ) : (writeAll W ws s).2 = none := by
  induction ws generalizing s with
  | nil => rfl
  | cons p rest ih => simp only [writeAll, orReturn, hW, ih]

theorem writeAll_logged_accepting (W : Sink σ ε) (hW : ∀ s p, (W.Write s p).2 = none)
    (ws : List (List Byte)) (s : σ) (L : List (List Byte × Option ε)) :
    (writeAll W.logged ws (s, L)).1.2 = L ++ ws.map fun p => (p, none) := by
  induction ws generalizing s L with
  | nil => simp [writeAll]
  | cons p rest ih =>
    have hlw : W.logged.Write (s, L) p = (((W.Write s p).1, L ++ [(p, none)]), none) := by
      simp only [Sink.logged, hW]
    have step : writeAll W.logged (p :: rest) (s, L)
        = orReturn (W.logged.Write (s, L) p) (fun s => writeAll W.logged rest s) := rfl
    rw [step, hlw]
    show (writeAll W.logged rest ((W.Write s p).1, L ++ [(p, none)])).1.2 = _
    rw [ih]
    simp

/-- On any sink that accepts every write, the slices `Encode` hands over make up, end to end,
the bytes a `bytes.Buffer` receives. -/
theorem Data.Encode_accepting (W : Sink σ ε) (hW : ∀ s p, (W.Write s p).2 = none)
    (d : Data) (s : σ) :
    ((Data.Encode W.logged d (s, [])).1.2.map Prod.fst).flatten = d.bytes
    ∧ (Data.Encode W d s).2 = none := by
  rw [Data.Encode_eq_writeAll W.logged, Data.Encode_eq_writeAll W,
    writeAll_logged_accepting W hW, Data.bytes_eq]
  refine ⟨?_, writeAll_accepting W hW _ _⟩
  simp [Function.comp_def]

/-- C8: on every sink and for every value tree, `Encode` returns an error exactly when the sink
rejects one of the writes `Encode` issues, and the error returned is the error of the first
rejected write, as the sink gave it. The writes issued are read off the journal of the sink,
which leaves the run unchanged. On a sink that accepts every write `Encode` returns no error,
whatever the tree. -/
theorem Encode_error_iff (W : Sink σ ε) (d : Data) (s : σ) :
    (Data.Encode W.logged d (s, [])).1.1 = (Data.Encode W d s).1
    ∧ (Data.Encode W.logged d (s, [])).2 = (Data.Encode W d s).2
    ∧ ((∃ err, (Data.Encode W d s).2 = some err)
        ↔ ∃ w ∈ (Data.Encode W.logged d (s, [])).1.2, ∃ err, w.2 = some err)
    ∧ (Data.Encode W d s).2 = firstRejected (Data.Encode W.logged d (s, [])).1.2
    ∧ ((∀ s p, (W.Write s p).2 = none) → (Data.Encode W d s).2 = none) := by
  obtain ⟨J, hJ, hf⟩ := writeAll_logged W d.writes s []
  rw [Data.Encode_eq_writeAll W.logged, Data.Encode_eq_writeAll W, hJ]
  refine ⟨rfl, rfl, ?_, ?_, fun hW => writeAll_accepting W hW _ _⟩
  · rw [← hf]
    simp only [List.nil_append, firstRejected]
    constructor
    · rintro ⟨err, he⟩
      have h := List.findSome?_isSome_iff.mp (by rw [he]; rfl : (J.findSome? fun w => w.2).isSome)
      obtain ⟨w, hw, hs⟩ := h
      exact ⟨w, hw, Option.isSome_iff_exists.mp hs⟩
    · rintro ⟨w, hw, hs⟩
      exact Option.isSome_iff_exists.mp
        (List.findSome?_isSome_iff.mpr ⟨w, hw, Option.isSome_iff_exists.mpr hs⟩)
  · rw [← hf]
    rfl

theorem Encode_error_iff_witness :
    (Data.Encode Buffer (.Object [([0x74], .StrictArray [.Object [], .Number 0])]) []).2 = none :=
  (Encode_error_iff Buffer (.Object [([0x74], .StrictArray [.Object [], .Number 0])]) []).2.2.2.2
    (fun _ _ => rfl)

end Errors

/-! ## Encoding the same value twice -/

theorem perm_eq_of_length_le_one {α : Type} (l r : List α) (h : l.Perm r)
    (h1 : l.length ≤ 1) : r = l := by
  match l, h, h1 with
  | [], h, _ => exact h.symm.eq_nil
  | [a], h, _ => exact List.perm_singleton.mp h.symm
  | _ :: _ :: _, _, h1 => simp at h1

mutual
/-- A tree without a map of two or more members has a single enumeration. -/
theorem Data.SameValue_eq : ∀ (d d' : Data), d.SameValue d' → d.fixedOrder = true → d' = d
  | .Number _, _, h, _ => by simpa only [Data.SameValue] using h
  | .Boolean _, _, h, _ => by simpa only [Data.SameValue] using h
  | .String _, _, h, _ => by simpa only [Data.SameValue] using h
  | .Null, _, h, _ => by simpa only [Data.SameValue] using h
  | .Undefined, _, h, _ => by simpa only [Data.SameValue] using h
  | .Object p, d', h, hf => by
    simp only [Data.SameValue] at h
    simp only [Data.fixedOrder, Bool.and_eq_true, decide_eq_true_eq] at hf
    obtain ⟨q, r, hpq, hqr, rfl⟩ := h
    have hq : q = p := SameEntries_eq p q hpq hf.2
    subst hq
    rw [perm_eq_of_length_le_one q r hqr hf.1]
  | .ECMAArray p, d', h, hf => by
    simp only [Data.SameValue] at h
    simp only [Data.fixedOrder, Bool.and_eq_true, decide_eq_true_eq] at hf
    obtain ⟨q, r, hpq, hqr, rfl⟩ := h
    have hq : q = p := SameEntries_eq p q hpq hf.2
    subst hq
    rw [perm_eq_of_length_le_one q r hqr hf.1]
  | .StrictArray p, d', h, hf => by
    simp only [Data.SameValue] at h
    simp only [Data.fixedOrder] at hf
    obtain ⟨q, hpq, rfl⟩ := h
    rw [SameElems_eq p q hpq hf]
theorem SameEntries_eq : ∀ (p q : List (List Byte × Data)),
    SameEntries p q → entriesFixedOrder p = true → q = p
  | [], _, h, _ => by simpa only [SameEntries] using h
  | (name, d) :: rest, q, h, hf => by
    simp only [SameEntries] at h
    simp only [entriesFixedOrder, Bool.and_eq_true] at hf
    obtain ⟨d', rest', hd, hr, rfl⟩ := h
    rw [Data.SameValue_eq d d' hd hf.1, SameEntries_eq rest rest' hr hf.2]
theorem SameElems_eq : ∀ (p q : List Data), SameElems p q → elemsFixedOrder p = true → q = p
  | [], _, h, _ => by simpa only [SameElems] using h
  | d :: rest, q, h, hf => by
    simp only [SameElems] at h
    simp only [elemsFixedOrder, Bool.and_eq_true] at hf
    obtain ⟨d', rest', hd, hr, rfl⟩ := h
    rw [Data.SameValue_eq d d' hd hf.1, SameElems_eq rest rest' hr hf.2]
end

theorem Data.fixedOrder_of_isLeaf (d : Data) (h : d.isLeaf = true) : d.fixedOrder = true := by
  cases d <;> first | rfl | simp [Data.isLeaf] at h

/-- C10, as the code has it: encoding the same value twice into two separate accepting sinks,
the maps being enumerated in any order in either run, leaves the same bytes in both whenever the
value is a leaf, or a StrictArray in which no Object or ECMAArray with two or more members
occurs at any depth. -/
theorem Encode_twice (d d' : Data) (h : d.SameValue d')
    (hd : d.isLeaf = true ∨ ∃ p, d = .StrictArray p ∧ elemsFixedOrder p = true) :
    Data.Encode Buffer d [] = Data.Encode Buffer d' [] := by
  have hf : d.fixedOrder = true := by
    rcases hd with hl | ⟨p, rfl, hp⟩
    · exact Data.fixedOrder_of_isLeaf d hl
    · simpa only [Data.fixedOrder] using hp
  rw [Data.SameValue_eq d d' h hf]

theorem Encode_twice_witness :
    Data.Encode Buffer (.StrictArray [.Boolean true, .Object [([0x61], .String [0x62])]]) []
      = Data.Encode Buffer (.StrictArray [.Boolean true, .Object [([0x61], .String [0x62])]]) []
    ∧ Data.Encode Buffer (.String [0x62]) [] = Data.Encode Buffer (.String [0x62]) [] :=
  ⟨Encode_twice _ _
      (by simp [Data.SameValue, SameElems, SameEntries])
      (Or.inr ⟨_, rfl, by decide⟩),
   Encode_twice _ _ (by simp [Data.SameValue]) (Or.inl rfl)⟩

/-- C10 fails as stated: the StrictArray holding the Object with members "a" and "b" is the same
value whether the Object is enumerated "a", "b" or "b", "a", and the two runs leave different
bytes in their sinks. -/
theorem Encode_twice_counterexample :
    (Data.StrictArray [.Object [([0x61], .Null), ([0x62], .Null)]]).SameValue
        (.StrictArray [.Object [([0x62], .Null), ([0x61], .Null)]])
    ∧ Data.Encode Buffer (.StrictArray [.Object [([0x61], .Null), ([0x62], .Null)]]) []
        = ([0x0A, 0x00, 0x00, 0x00, 0x01,
            0x03, 0x00, 0x01, 0x61, 0x05, 0x00, 0x01, 0x62, 0x05, 0x00, 0x00, 0x09], none)
    ∧ Data.Encode Buffer (.StrictArray [.Object [([0x62], .Null), ([0x61], .Null)]]) []
        = ([0x0A, 0x00, 0x00, 0x00, 0x01,
            0x03, 0x00, 0x01, 0x62, 0x05, 0x00, 0x01, 0x61, 0x05, 0x00, 0x00, 0x09], none)
    ∧ Data.Encode Buffer (.StrictArray [.Object [([0x61], .Null), ([0x62], .Null)]]) []
        ≠ Data.Encode Buffer (.StrictArray [.Object [([0x62], .Null), ([0x61], .Null)]]) [] := by
  refine ⟨?_, by decide, by decide, by decide⟩
  simp only [Data.SameValue, SameElems, SameEntries]
  exact ⟨[.Object [([0x62], .Null), ([0x61], .Null)]],
    ⟨.Object [([0x62], .Null), ([0x61], .Null)], [],
      ⟨[([0x61], .Null), ([0x62], .Null)], [([0x62], .Null), ([0x61], .Null)],
        ⟨.Null, [([0x62], .Null)], rfl, ⟨.Null, [], rfl, rfl, rfl⟩, rfl⟩,
        List.Perm.swap _ _ _, rfl⟩,
      rfl, rfl⟩,
    rfl⟩

/-! ## Markers -/

theorem Data.bytes_wireMarker (d : Data) : ∃ rest, d.bytes = d.wireMarker :: rest := by
  cases d with
  | Number v => exact ⟨putUint64 v.val, by rw [Data.bytes_eq]; rfl⟩
  | Boolean p => exact ⟨if p then booleanTrue else booleanFalse, by cases p <;> rfl⟩
  | String p =>
    rw [String_bytes]
    simp only [Data.wireMarker, MaxUint16, TypeString, TypeLongString]
    split
    · exact ⟨putUint16 (p.length % 65536) ++ p, rfl⟩
    · exact ⟨putUint32 (p.length % 4294967296) ++ p, rfl⟩
  | Object p => exact ⟨_, (Object_bytes p).trans (List.append_assoc _ _ _)⟩
  | Null => exact ⟨[], rfl⟩
  | Undefined => exact ⟨[], rfl⟩
  | ECMAArray p =>
    exact ⟨putUint32 (p.length % 4294967296) ++ (p.map entrySegment).flatten,
      (ECMAArray_bytes p).trans (List.append_assoc _ _ _)⟩
  | StrictArray p =>
    exact ⟨putUint32 (p.length % 4294967296) ++ (p.map Data.bytes).flatten,
      (StrictArray_bytes p).trans (List.append_assoc _ _ _)⟩

/-- C11, as the code has it: for every value that is not a String longer than 65535 bytes, the
marker `Type()` reports is the first byte `Encode` writes, and it is the marker of the table:
0x00 Number, 0x01 Boolean, 0x02 String, 0x03 Object, 0x05 Null, 0x06 Undefined, 0x08 ECMAArray,
0x0A StrictArray. For a String `Type()` reports 0x02 whatever the length, while the first byte
written is 0x0C once the length exceeds 65535. -/
theorem TypeMarker_first_byte (d : Data) (b : List Byte)
    (h : ∀ p, d = .String p → p.length ≤ 65535) :
    (∃ rest, Data.Encode Buffer d b = (b ++ d.TypeMarker :: rest, none))
    ∧ d.bytes.head? = some d.TypeMarker
    ∧ (∀ v, (Data.Number v).TypeMarker = 0x00)
    ∧ (∀ v, (Data.Boolean v).TypeMarker = 0x01)
    ∧ (∀ p, (Data.String p).TypeMarker = 0x02)
    ∧ (∀ p, (Data.Object p).TypeMarker = 0x03)
    ∧ Data.Null.TypeMarker = 0x05
    ∧ Data.Undefined.TypeMarker = 0x06
    ∧ (∀ p, (Data.ECMAArray p).TypeMarker = 0x08)
    ∧ (∀ p, (Data.StrictArray p).TypeMarker = 0x0A)
    ∧ (∀ p : List Byte, 65535 < p.length →
        ∃ rest, Data.Encode Buffer (.String p) b = (b ++ 0x0C :: rest, none)) := by
  have hw : d.wireMarker = d.TypeMarker := by
    cases d with
    | String p =>
      simp only [Data.wireMarker, MaxUint16, Data.TypeMarker]
      rw [if_pos (h p rfl)]
    | _ => rfl
  obtain ⟨rest, hr⟩ := Data.bytes_wireMarker d
  rw [hw] at hr
  refine ⟨⟨rest, by rw [Data.Encode_Buffer, hr]⟩, by rw [hr]; rfl, fun _ => rfl, fun _ => rfl,
    fun _ => rfl, fun _ => rfl, rfl, rfl, fun _ => rfl, fun _ => rfl, ?_⟩
  intro p hp
  obtain ⟨rest, hr⟩ := Data.bytes_wireMarker (.String p)
  simp only [Data.wireMarker, MaxUint16] at hr
  rw [if_neg (by omega)] at hr
  exact ⟨rest, by rw [Data.Encode_Buffer, hr]; rfl⟩

theorem TypeMarker_first_byte_witness :
    (∃ rest, Data.Encode Buffer (.String [0x66, 0x6f, 0x6f]) []
        = ([] ++ (Data.String [0x66, 0x6f, 0x6f]).TypeMarker :: rest, none))
    ∧ (∃ rest, Data.Encode Buffer (.StrictArray [.Null]) []
        = ([] ++ (Data.StrictArray [.Null]).TypeMarker :: rest, none)) :=
  ⟨(TypeMarker_first_byte (.String [0x66, 0x6f, 0x6f]) []
      (fun p hp => by cases hp; decide)).1,
   (TypeMarker_first_byte (.StrictArray [.Null]) [] (fun p hp => by cases hp)).1⟩

/-- C11 fails as stated: for the String of 65536 bytes `Type()` reports 0x02, and the first
byte `Encode` writes is 0x0C. -/
theorem TypeMarker_first_byte_counterexample :
    65535 < (List.replicate 65536 (0x61 : Byte)).length
    ∧ (Data.String (List.replicate 65536 0x61)).TypeMarker = 0x02
    ∧ (Data.String (List.replicate 65536 0x61)).bytes.head? = some 0x0C
    ∧ (Data.String (List.replicate 65536 0x61)).bytes.head?
        ≠ some (Data.String (List.replicate 65536 0x61)).TypeMarker := by
  have hlen : (List.replicate 65536 (0x61 : Byte)).length = 65536 := List.length_replicate _ _
  have hb : (Data.String (List.replicate 65536 0x61)).bytes.head? = some 0x0C := by
    rw [String_bytes, hlen, if_neg (by omega)]
    rfl
  refine ⟨by omega, rfl, hb, ?_⟩
  rw [hb]
  decide

/-! ## `TestECMAArrayEncode` -/

/-- C12: the ECMAArray of the test, enumerated "test" first, is written as `expected1`;
enumerated "test2" first it is written as 08, 00 00 00 02, then "test2" and its value, then
"test" and its value, which is neither `expected1` nor `expected2`: `expected2` has the count
after the first member, and `Encode` writes it right after the marker. -/
theorem TestECMAArrayEncode_orders :
    testECMAArray.SameValue testECMAArraySwapped
    ∧ Data.Encode Buffer testECMAArray [] = (expected1, none)
    ∧ Data.Encode Buffer testECMAArraySwapped []
        = ([0x08, 0x00, 0x00, 0x00, 0x02, 0x00, 0x05, 0x74, 0x65, 0x73, 0x74, 0x32, 0x01, 0x00,
            0x00, 0x04, 0x74, 0x65, 0x73, 0x74, 0x01, 0x01], none)
    ∧ (Data.Encode Buffer testECMAArraySwapped []).1 ≠ expected1
    ∧ (Data.Encode Buffer testECMAArraySwapped []).1 ≠ expected2 := by
  refine ⟨?_, by decide, by decide, by decide, by decide⟩
  simp only [testECMAArray, testECMAArraySwapped, Data.SameValue, SameEntries]
  exact ⟨[([0x74, 0x65, 0x73, 0x74], .Boolean true),
      ([0x74, 0x65, 0x73, 0x74, 0x32], .Boolean false)], _,
    ⟨_, _, rfl, ⟨_, _, rfl, rfl, rfl⟩, rfl⟩, List.Perm.swap _ _ _, rfl⟩

/-! ## `Boolean.Encode`, `Null.Encode`, `Undefined.Encode` -/

/-- C14: `Boolean(true)` is written to an accepting sink as `01 01` and `Boolean(false)` as
`01 00`; a Boolean gives no other output. -/
theorem Boolean_Encode_layout (p : Bool) (b : List Byte) :
    Data.Encode Buffer (.Boolean p) b = (b ++ [0x01, if p then 0x01 else 0x00], none)
    ∧ Data.Encode Buffer (.Boolean true) [] = ([0x01, 0x01], none)
    ∧ Data.Encode Buffer (.Boolean false) [] = ([0x01, 0x00], none)
    ∧ ((Data.Boolean p).bytes = [0x01, 0x01] ∨ (Data.Boolean p).bytes = [0x01, 0x00]) := by
  refine ⟨?_, by decide, by decide, ?_⟩
  · rw [Data.Encode_Buffer]
    cases p <;> rfl
  · cases p
    · exact Or.inr (by decide)
    · exact Or.inl (by decide)

/-- C15: Null is written to an accepting sink as the single byte 0x05 and Undefined as the
single byte 0x06, nothing following. -/
theorem Null_Undefined_Encode_layout (b : List Byte) :
    Data.Encode Buffer .Null b = (b ++ [0x05], none)
    ∧ Data.Encode Buffer .Undefined b = (b ++ [0x06], none)
    ∧ Data.Null.bytes = [0x05]
    ∧ Data.Undefined.bytes = [0x06] :=
  ⟨rfl, rfl, rfl, rfl⟩

/-! ## Appending -/

/-- C17: `Encode` into a `bytes.Buffer` holding `b` leaves `b` followed by the encoding of the
value; encoding `v1` and then `v2` into the same buffer leaves the encoding of `v1` followed
at once by the encoding of `v2`. -/
theorem Encode_appends (v1 v2 : Data) (b : List Byte) :
    Data.Encode Buffer v1 b = (b ++ v1.bytes, none)
    ∧ (Data.Encode Buffer v1 b).1.take b.length = b
    ∧ (Data.Encode Buffer v1 b).1.drop b.length = v1.bytes
    ∧ Data.Encode Buffer v2 (Data.Encode Buffer v1 b).1 = (b ++ v1.bytes ++ v2.bytes, none) := by
  refine ⟨Data.Encode_Buffer v1 b, ?_, ?_, ?_⟩
  · rw [Data.Encode_Buffer]
    exact List.take_left' rfl
  · rw [Data.Encode_Buffer]
    exact List.drop_left' rfl
  · rw [Data.Encode_Buffer, Data.Encode_Buffer]

/-! ## The empty member name -/

theorem Data.wireMarker_ne_ObjectEnd (d : Data) : d.wireMarker ≠ 0x09 := by
  cases d with
  | Number v => exact (by decide : TypeNumber ≠ 0x09)
  | Boolean v => exact (by decide : TypeBoolean ≠ 0x09)
  | String p =>
    simp only [Data.wireMarker]
    split <;> decide
  | Object p => exact (by decide : TypeObject ≠ 0x09)
  | Null => exact (by decide : TypeNull ≠ 0x09)
  | Undefined => exact (by decide : TypeUndefined ≠ 0x09)
  | ECMAArray p => exact (by decide : TypeECMAArray ≠ 0x09)
  | StrictArray p => exact (by decide : TypeStrictArray ≠ 0x09)

theorem entrySegment_empty_name (v : Data) :
    entrySegment ([], v) = [0x00, 0x00] ++ v.bytes := by
  have hh : utf8Header [] = [0x00, 0x00] := by decide
  simp only [entrySegment, hh]

theorem empty_name_not_sentinel (v : Data) :
    ([0x00, 0x00] ++ v.bytes).take 3 ≠ [0x00, 0x00, 0x09] := by
  obtain ⟨rest, hr⟩ := Data.bytes_wireMarker v
  rw [hr]
  intro h
  have h3 : v.wireMarker = 0x09 := by
    simpa using h
  exact Data.wireMarker_ne_ObjectEnd v h3

/-- C18, as the code has it: the bytes written for a member named "" are `00 00` followed by
the encoding of its value, and that encoding never begins with 0x09; the member shares with the
sentinel `00 00 09` its first two bytes only, and the third byte tells them apart. -/
theorem empty_name_segment (v : Data) :
    utf8Header [] = [0x00, 0x00]
    ∧ entrySegment ([], v) = [0x00, 0x00] ++ v.bytes
    ∧ (entrySegment ([], v)).take 2 = [0x00, 0x00]
    ∧ (∃ m rest, v.bytes = m :: rest ∧ m ≠ 0x09)
    ∧ (entrySegment ([], v)).take 3 ≠ [0x00, 0x00, 0x09] := by
  obtain ⟨rest, hr⟩ := Data.bytes_wireMarker v
  have hs := entrySegment_empty_name v
  refine ⟨by decide, hs, by rw [hs]; rfl, ⟨_, rest, hr, Data.wireMarker_ne_ObjectEnd v⟩, ?_⟩
  rw [hs]
  exact empty_name_not_sentinel v

/-- C18 fails as stated: there is no member value for which the bytes of a member named ""
begin with `00 00 09`. -/
theorem empty_name_segment_counterexample :
    ¬ ∃ v : Data, (utf8Header [] ++ v.bytes).take 3 = [0x00, 0x00, 0x09] := by
  rintro ⟨v, h⟩
  have hh : utf8Header [] = [0x00, 0x00] := by decide
  rw [hh] at h
  exact empty_name_not_sentinel v h

/-! ## What reaches the sink when a write is rejected -/

section Rejection

variable {σ ε : Type}

/-- The journal of a run of writes is a run of accepted slices, followed by the rejected slice
when there is one; the accepted slices, and the rejected one after them, are the slices of the
list in order. -/
theorem writeAll_logged_shape (W : Sink σ ε) (ws : List (List Byte)) (s : σ)
    (L : List (List Byte × Option ε)) :
    ∃ acc rej, (writeAll W.logged ws (s, L)).1.2 = L ++ ((acc.map fun p => (p, none)) ++ rej)
      ∧ ((rej = [] ∧ ws = acc ∧ (writeAll W ws s).2 = none)
        ∨ ∃ p e rest, rej = [(p, some e)] ∧ ws = acc ++ p :: rest
            ∧ (writeAll W ws s).2 = some e) := by
  induction ws generalizing s L with
  | nil => exact ⟨[], [], by simp [writeAll], Or.inl ⟨rfl, rfl, rfl⟩⟩
  | cons p rest ih =>
    have step : writeAll W.logged (p :: rest) (s, L)
        = orReturn (W.logged.Write (s, L) p) (fun s => writeAll W.logged rest s) := rfl
    cases hw : (W.Write s p).2 with
    | some e =>
      have hlw : W.logged.Write (s, L) p = (((W.Write s p).1, L ++ [(p, some e)]), some e) := by
        simp only [Sink.logged, hw]
      refine ⟨[], [(p, some e)], ?_, Or.inr ⟨p, e, rest, rfl, rfl, ?_⟩⟩
      · rw [step, hlw]
        rfl
      · simp only [writeAll, orReturn, hw]
    | none =>
      have hlw : W.logged.Write (s, L) p = (((W.Write s p).1, L ++ [(p, none)]), none) := by
        simp only [Sink.logged, hw]
      obtain ⟨acc, rej, hJ, hcase⟩ := ih (W.Write s p).1 (L ++ [(p, none)])
      have hres : (writeAll W (p :: rest) s).2 = (writeAll W rest (W.Write s p).1).2 := by
        simp only [writeAll, orReturn, hw]
      refine ⟨p :: acc, rej, ?_, ?_⟩
      · rw [step, hlw]
        show (writeAll W.logged rest ((W.Write s p).1, L ++ [(p, none)])).1.2 = _
        rw [hJ]
        simp
      · rcases hcase with ⟨h1, h2, h3⟩ | ⟨q, e, tl, h1, h2, h3⟩
        · exact Or.inl ⟨h1, by rw [h2], by rw [hres, h3]⟩
        · exact Or.inr ⟨q, e, tl, h1, by rw [h2]; rfl, by rw [hres, h3]⟩

/-- In a list of accepted entries followed by at most one rejected entry, a rejected entry is
the last one and everything before it was accepted. -/
theorem journal_split (acc : List (List Byte)) (rej J1 J2 : List (List Byte × Option ε))
    (w : List Byte × Option ε) (err : ε) (hw : w.2 = some err)
    (hrej : rej = [] ∨ ∃ p e, rej = [(p, some e)])
    (h : (acc.map fun p => (p, (none : Option ε))) ++ rej = J1 ++ w :: J2) :
    J2 = [] ∧ J1 = (acc.map fun p => (p, none)) ∧ rej = [w] := by
  induction acc generalizing J1 with
  | nil =>
    rcases hrej with rfl | ⟨p, e, rfl⟩
    · cases J1 <;> simp at h
    · cases J1 with
      | nil =>
        simp only [List.map_nil, List.nil_append, List.cons.injEq] at h
        exact ⟨h.2.symm, rfl, by rw [h.1]⟩
      | cons j J1' =>
        simp only [List.map_nil, List.nil_append, List.cons_append, List.cons.injEq] at h
        cases J1' <;> simp at h
  | cons a acc' ih =>
    cases J1 with
    | nil =>
      simp only [List.map_cons, List.cons_append, List.nil_append, List.cons.injEq] at h
      rw [← h.1] at hw
      simp at hw
    | cons j J1' =>
      simp only [List.map_cons, List.cons_append, List.cons.injEq] at h
      obtain ⟨h1, h2, h3⟩ := ih J1' h.2
      exact ⟨h1, by rw [← h.1, h2]; rfl, h3⟩

/-- C16: when the sink rejects a write during `Encode`, that write is the last one `Encode`
issues; every write before it was accepted, and the bytes of those writes are a prefix of the
bytes `Encode` leaves, for the same enumeration, in a sink that accepts everything. The
rejected slice is the one that would have come next, and `Encode` returns its error. -/
theorem Encode_stops_at_rejection (W : Sink σ ε) (d : Data) (s : σ)
    (J1 J2 : List (List Byte × Option ε)) (w : List Byte × Option ε) (err : ε)
    (hJ : (Data.Encode W.logged d (s, [])).1.2 = J1 ++ w :: J2) (hw : w.2 = some err) :
    J2 = []
    ∧ (∀ x ∈ J1, x.2 = none)
    ∧ (J1.map Prod.fst).flatten <+: (Data.Encode Buffer d []).1
    ∧ ((J1.map Prod.fst).flatten ++ w.1) <+: (Data.Encode Buffer d []).1
    ∧ (Data.Encode W d s).2 = some err := by
  obtain ⟨acc, rej, hshape, hcase⟩ := writeAll_logged_shape W d.writes s []
  rw [Data.Encode_eq_writeAll W.logged, hshape, List.nil_append] at hJ
  have hrej : rej = [] ∨ ∃ p e, rej = [(p, some e)] := by
    rcases hcase with ⟨h1, _, _⟩ | ⟨p, e, _, h1, _, _⟩
    · exact Or.inl h1
    · exact Or.inr ⟨p, e, h1⟩
  obtain ⟨h2, h1, hr⟩ := journal_split acc rej J1 J2 w err hw hrej hJ
  have hacc : J1.map Prod.fst = acc := by
    rw [h1, List.map_map]
    exact List.map_id _
  rcases hcase with ⟨h0, _, _⟩ | ⟨p, e, rest, hp, hws, hres⟩
  · rw [h0] at hr
    cases hr
  · rw [hp] at hr
    have hwe : w = (p, some e) := by
      simpa using hr.symm
    have hbytes : (Data.Encode Buffer d []).1 = acc.flatten ++ (p ++ rest.flatten) := by
      show d.bytes = _
      rw [Data.bytes_eq, hws]
      simp
    refine ⟨h2, ?_, ?_, ?_, ?_⟩
    · intro x hx
      rw [h1] at hx
      obtain ⟨_, _, rfl⟩ := List.mem_map.mp hx
      rfl
    · rw [hacc, hbytes]
      exact List.prefix_append _ _
    · rw [hacc, hbytes, hwe]
      exact ⟨rest.flatten, by simp⟩
    · rw [Data.Encode_eq_writeAll W, hres]
      rw [hwe] at hw
      simpa using hw

theorem Encode_stops_at_rejection_witness :
    Data.Encode (rejectFrom 5) (.Object [([0x61], .StrictArray [.Boolean true, .Null])]) (0, [])
      = ((6, [0x03, 0x00, 0x01, 0x61, 0x0A, 0x00, 0x00, 0x00, 0x02]), some 5)
    ∧ (Data.Object [([0x61], .StrictArray [.Boolean true, .Null])]).bytes
      = [0x03, 0x00, 0x01, 0x61, 0x0A, 0x00, 0x00, 0x00, 0x02, 0x01, 0x01, 0x05, 0x00, 0x00, 0x09]
    ∧ ([] : List (List Byte × Option Nat)) = []
    ∧ (∀ x ∈ [(([0x03] : List Byte), (none : Option Nat)), ([0x00, 0x01], none), ([0x61], none),
          ([0x0A], none), ([0x00, 0x00, 0x00, 0x02], none)], x.2 = none) :=
  ⟨by decide, by decide,
   (Encode_stops_at_rejection (rejectFrom 5)
      (.Object [([0x61], .StrictArray [.Boolean true, .Null])]) (0, [])
      [([0x03], none), ([0x00, 0x01], none), ([0x61], none), ([0x0A], none),
        ([0x00, 0x00, 0x00, 0x02], none)]
      [] ([0x01], some 5) 5 (by decide) rfl).1,
   (Encode_stops_at_rejection (rejectFrom 5)
      (.Object [([0x61], .StrictArray [.Boolean true, .Null])]) (0, [])
      [([0x03], none), ([0x00, 0x01], none), ([0x61], none), ([0x0A], none),
        ([0x00, 0x00, 0x00, 0x02], none)]
      [] ([0x01], some 5) 5 (by decide) rfl).2.1⟩

end Rejection

/-! ## Unique reading -/

theorem putUint16_inj (a b : Nat) (ha : a < 65536) (hb : b < 65536)
    (h : putUint16 a = putUint16 b) : a = b := by
  rw [← beValue_putUint16 a ha, ← beValue_putUint16 b hb, h]

theorem putUint32_inj (a b : Nat) (ha : a < 4294967296) (hb : b < 4294967296)
    (h : putUint32 a = putUint32 b) : a = b := by
  rw [← beValue_putUint32 a ha, ← beValue_putUint32 b hb, h]

theorem putUint64_inj (a b : Nat) (ha : a < 18446744073709551616)
    (hb : b < 18446744073709551616) (h : putUint64 a = putUint64 b) : a = b := by
  rw [← beValue_putUint64 a ha, ← beValue_putUint64 b hb, h]

theorem utf8Header_short (name : List Byte) (h : name.length ≤ 65535) :
    utf8Header name = putUint16 name.length ++ name := by
  rw [utf8Header_bytes, Nat.min_eq_left h, List.take_length]

/-- A name header of a bounded name is read back in one way. -/
theorem utf8Header_unique (n1 n2 x1 x2 : List Byte) (h1 : n1.length ≤ 65535)
    (h2 : n2.length ≤ 65535) (h : utf8Header n1 ++ x1 = utf8Header n2 ++ x2) :
    n1 = n2 ∧ x1 = x2 := by
  rw [utf8Header_short n1 h1, utf8Header_short n2 h2, List.append_assoc, List.append_assoc] at h
  obtain ⟨hl, hr⟩ := List.append_inj h rfl
  exact List.append_inj hr (putUint16_inj _ _ (by omega) (by omega) hl)

theorem wireMarker_eq_of_bytes (d1 d2 : Data) (r1 r2 : List Byte)
    (h : d1.bytes ++ r1 = d2.bytes ++ r2) : d1.wireMarker = d2.wireMarker := by
  obtain ⟨t1, h1⟩ := Data.bytes_wireMarker d1
  obtain ⟨t2, h2⟩ := Data.bytes_wireMarker d2
  rw [h1, h2] at h
  exact (List.cons.inj h).1

theorem sentinel_ne_entrySegment (name : List Byte) (d : Data) (x y : List Byte)
    (hn : name.length ≤ 65535) :
    [0x00, 0x00, 0x09] ++ x ≠ entrySegment (name, d) ++ y := by
  intro h
  have h0 : [0x00, 0x00, 0x09] ++ x = utf8Header [] ++ (0x09 :: x) := by
    rw [utf8Header_short [] (by decide)]
    rfl
  rw [h0, entrySegment, List.append_assoc] at h
  obtain ⟨_, h2⟩ := utf8Header_unique [] name _ _ (by decide) hn h
  obtain ⟨t, ht⟩ := Data.bytes_wireMarker d
  rw [ht] at h2
  exact Data.wireMarker_ne_ObjectEnd d (List.cons.inj h2).1.symm

/-- One entry of a map is read back in one way, once its value is. -/
theorem entrySegment_unique (n1 n2 : List Byte) (d1 d2 : Data) (x y : List Byte)
    (h1 : n1.length ≤ 65535) (h2 : n2.length ≤ 65535)
    (ih : ∀ r1 r2, d1.bytes ++ r1 = d2.bytes ++ r2 → d1 = d2 ∧ r1 = r2)
    (h : entrySegment (n1, d1) ++ x = entrySegment (n2, d2) ++ y) :
    (n1, d1) = (n2, d2) ∧ x = y := by
  simp only [entrySegment, List.append_assoc] at h
  obtain ⟨hn, hr⟩ := utf8Header_unique n1 n2 _ _ h1 h2 h
  obtain ⟨hd, hx⟩ := ih _ _ hr
  exact ⟨by rw [hn, hd], hx⟩

theorem entriesBounded_cons (n : List Byte) (d : Data) (rest : List (List Byte × Data)) :
    entriesBounded ((n, d) :: rest) = true
      ↔ n.length ≤ 65535 ∧ d.Bounded = true ∧ entriesBounded rest = true := by
  simp only [entriesBounded, Bool.and_eq_true, decide_eq_true_eq]

theorem elemsBounded_cons (d : Data) (rest : List Data) :
    elemsBounded (d :: rest) = true ↔ d.Bounded = true ∧ elemsBounded rest = true := by
  simp only [elemsBounded, Bool.and_eq_true]

theorem segments_cons (e : List Byte × Data) (rest : List (List Byte × Data)) (x : List Byte) :
    ((e :: rest).map entrySegment).flatten ++ x
      = entrySegment e ++ ((rest.map entrySegment).flatten ++ x) := by
  simp only [List.map_cons, List.flatten_cons, List.append_assoc]

theorem elements_cons (d : Data) (rest : List Data) (x : List Byte) :
    ((d :: rest).map Data.bytes).flatten ++ x
      = d.bytes ++ ((rest.map Data.bytes).flatten ++ x) := by
  simp only [List.map_cons, List.flatten_cons, List.append_assoc]

mutual
/-- A bounded tree is read back from the front of a byte sequence in one way: the encoding
fixes the tree and what follows it. -/
theorem Data.bytes_unique : ∀ (d1 d2 : Data) (r1 r2 : List Byte),
    d1.Bounded = true → d2.Bounded = true → d1.bytes ++ r1 = d2.bytes ++ r2 →
    d1 = d2 ∧ r1 = r2
  | .Number v, d2, r1, r2, _, _, h => by
    have hm := wireMarker_eq_of_bytes _ _ _ _ h
    cases d2 with
    | Number v' =>
      have hb : ∀ u, (Data.Number u).bytes = [0x00] ++ putUint64 u.val := fun u => by
        rw [Data.bytes_eq]; rfl
      rw [hb, hb] at h
      obtain ⟨hl, hr⟩ := List.append_inj h rfl
      have hv := putUint64_inj _ _ v.isLt v'.isLt (List.append_cancel_left hl)
      exact ⟨by rw [Fin.ext hv], hr⟩
    | String q =>
      exfalso
      simp only [Data.wireMarker, Data.TypeMarker, TypeNumber, TypeString, TypeLongString] at hm
      split at hm <;> simp at hm
    | _ =>
      exfalso
      simp [Data.wireMarker, Data.TypeMarker, TypeNumber, TypeBoolean, TypeObject, TypeNull,
        TypeUndefined, TypeECMAArray, TypeStrictArray] at hm
  | .Boolean v, d2, r1, r2, _, _, h => by
    have hm := wireMarker_eq_of_bytes _ _ _ _ h
    cases d2 with
    | Boolean v' =>
      have hb : ∀ u, (Data.Boolean u).bytes = [0x01, if u then 0x01 else 0x00] := fun u => by
        cases u <;> rfl
      rw [hb, hb] at h
      obtain ⟨hl, hr⟩ := List.append_inj h rfl
      refine ⟨?_, hr⟩
      cases v <;> cases v' <;> first | rfl | simp at hl
    | String q =>
      exfalso
      simp only [Data.wireMarker, Data.TypeMarker, TypeBoolean, TypeString, TypeLongString] at hm
      split at hm <;> simp at hm
    | _ =>
      exfalso
      simp [Data.wireMarker, Data.TypeMarker, TypeNumber, TypeBoolean, TypeObject, TypeNull,
        TypeUndefined, TypeECMAArray, TypeStrictArray] at hm
  | .String p, d2, r1, r2, hb1, hb2, h => by
    have hm := wireMarker_eq_of_bytes _ _ _ _ h
    cases d2 with
    | String q =>
      simp only [Data.Bounded, decide_eq_true_eq] at hb1 hb2
      simp only [Data.wireMarker, MaxUint16, TypeString, TypeLongString] at hm
      rw [String_bytes, String_bytes] at h
      by_cases hp : p.length ≤ 65535 <;> by_cases hq : q.length ≤ 65535
      · rw [if_pos hp, if_pos hq] at h
        simp only [List.append_assoc] at h
        obtain ⟨hl, hr⟩ := List.append_inj (List.append_cancel_left h) rfl
        have hlen := putUint16_inj _ _ (Nat.mod_lt _ (by decide)) (Nat.mod_lt _ (by decide)) hl
        rw [Nat.mod_eq_of_lt (by omega), Nat.mod_eq_of_lt (by omega)] at hlen
        obtain ⟨h1, h2⟩ := List.append_inj hr hlen
        exact ⟨by rw [h1], h2⟩
      · rw [if_pos hp, if_neg hq] at hm
        simp at hm
      · rw [if_neg hp, if_pos hq] at hm
        simp at hm
      · rw [if_neg hp, if_neg hq] at h
        simp only [List.append_assoc] at h
        obtain ⟨hl, hr⟩ := List.append_inj (List.append_cancel_left h) rfl
        have hlen := putUint32_inj _ _ (Nat.mod_lt _ (by decide)) (Nat.mod_lt _ (by decide)) hl
        rw [Nat.mod_eq_of_lt hb1, Nat.mod_eq_of_lt hb2] at hlen
        obtain ⟨h1, h2⟩ := List.append_inj hr hlen
        exact ⟨by rw [h1], h2⟩
    | _ =>
      exfalso
      simp only [Data.wireMarker, Data.TypeMarker, TypeNumber, TypeBoolean, TypeObject, TypeNull,
        TypeUndefined, TypeECMAArray, TypeStrictArray, TypeString, TypeLongString] at hm
      split at hm <;> simp at hm
  | .Object p, d2, r1, r2, hb1, hb2, h => by
    have hm := wireMarker_eq_of_bytes _ _ _ _ h
    cases d2 with
    | Object q =>
      simp only [Data.Bounded] at hb1 hb2
      rw [Object_bytes, Object_bytes] at h
      simp only [List.append_assoc] at h
      obtain ⟨h1, h2⟩ := entries_unique_sentinel p q r1 r2 hb1 hb2 (List.append_cancel_left h)
      exact ⟨by rw [h1], h2⟩
    | String q =>
      exfalso
      simp only [Data.wireMarker, Data.TypeMarker, TypeObject, TypeString, TypeLongString] at hm
      split at hm <;> simp at hm
    | _ =>
      exfalso
      simp [Data.wireMarker, Data.TypeMarker, TypeNumber, TypeBoolean, TypeObject, TypeNull,
        TypeUndefined, TypeECMAArray, TypeStrictArray] at hm
  | .Null, d2, r1, r2, _, _, h => by
    have hm := wireMarker_eq_of_bytes _ _ _ _ h
    cases d2 with
    | Null => exact ⟨rfl, List.append_cancel_left h⟩
    | String q =>
      exfalso
      simp only [Data.wireMarker, Data.TypeMarker, TypeNull, TypeString, TypeLongString] at hm
      split at hm <;> simp at hm
    | _ =>
      exfalso
      simp [Data.wireMarker, Data.TypeMarker, TypeNumber, TypeBoolean, TypeObject, TypeNull,
        TypeUndefined, TypeECMAArray, TypeStrictArray] at hm
  | .Undefined, d2, r1, r2, _, _, h => by
    have hm := wireMarker_eq_of_bytes _ _ _ _ h
    cases d2 with
    | Undefined => exact ⟨rfl, List.append_cancel_left h⟩
    | String q =>
      exfalso
      simp only [Data.wireMarker, Data.TypeMarker, TypeUndefined, TypeString, TypeLongString] at hm
      split at hm <;> simp at hm
    | _ =>
      exfalso
      simp [Data.wireMarker, Data.TypeMarker, TypeNumber, TypeBoolean, TypeObject, TypeNull,
        TypeUndefined, TypeECMAArray, TypeStrictArray] at hm
  | .ECMAArray p, d2, r1, r2, hb1, hb2, h => by
    have hm := wireMarker_eq_of_bytes _ _ _ _ h
    cases d2 with
    | ECMAArray q =>
      simp only [Data.Bounded, Bool.and_eq_true, decide_eq_true_eq] at hb1 hb2
      rw [ECMAArray_bytes, ECMAArray_bytes] at h
      simp only [List.append_assoc] at h
      obtain ⟨hl, hr⟩ := List.append_inj (List.append_cancel_left h) rfl
      have hlen := putUint32_inj _ _ (Nat.mod_lt _ (by decide)) (Nat.mod_lt _ (by decide)) hl
      rw [Nat.mod_eq_of_lt hb1.1, Nat.mod_eq_of_lt hb2.1] at hlen
      obtain ⟨h1, h2⟩ := entries_unique_count p q r1 r2 hb1.2 hb2.2 hlen hr
      exact ⟨by rw [h1], h2⟩
    | String q =>
      exfalso
      simp only [Data.wireMarker, Data.TypeMarker, TypeECMAArray, TypeString, TypeLongString] at hm
      split at hm <;> simp at hm
    | _ =>
      exfalso
      simp [Data.wireMarker, Data.TypeMarker, TypeNumber, TypeBoolean, TypeObject, TypeNull,
        TypeUndefined, TypeECMAArray, TypeStrictArray] at hm
  | .StrictArray p, d2, r1, r2, hb1, hb2, h => by
    have hm := wireMarker_eq_of_bytes _ _ _ _ h
    cases d2 with
    | StrictArray q =>
      simp only [Data.Bounded, Bool.and_eq_true, decide_eq_true_eq] at hb1 hb2
      rw [StrictArray_bytes, StrictArray_bytes] at h
      simp only [List.append_assoc] at h
      obtain ⟨hl, hr⟩ := List.append_inj (List.append_cancel_left h) rfl
      have hlen := putUint32_inj _ _ (Nat.mod_lt _ (by decide)) (Nat.mod_lt _ (by decide)) hl
      rw [Nat.mod_eq_of_lt hb1.1, Nat.mod_eq_of_lt hb2.1] at hlen
      obtain ⟨h1, h2⟩ := elems_unique_count p q r1 r2 hb1.2 hb2.2 hlen hr
      exact ⟨by rw [h1], h2⟩
    | String q =>
      exfalso
      simp only [Data.wireMarker, Data.TypeMarker, TypeStrictArray, TypeString,
        TypeLongString] at hm
      split at hm <;> simp at hm
    | _ =>
      exfalso
      simp [Data.wireMarker, Data.TypeMarker, TypeNumber, TypeBoolean, TypeObject, TypeNull,
        TypeUndefined, TypeECMAArray, TypeStrictArray] at hm
/-- The entries of an Object are read back in one way up to the sentinel. -/
theorem entries_unique_sentinel : ∀ (p q : List (List Byte × Data)) (r1 r2 : List Byte),
    entriesBounded p = true → entriesBounded q = true →
    (p.map entrySegment).flatten ++ ([0x00, 0x00, 0x09] ++ r1)
      = (q.map entrySegment).flatten ++ ([0x00, 0x00, 0x09] ++ r2) →
    p = q ∧ r1 = r2
  | [], [], r1, r2, _, _, h => ⟨rfl, List.append_cancel_left h⟩
  | [], (n, d) :: q, r1, r2, _, hb2, h => by
    exfalso
    rw [segments_cons] at h
    exact sentinel_ne_entrySegment n d _ _ ((entriesBounded_cons n d q).mp hb2).1 h
  | (n, d) :: p, [], r1, r2, hb1, _, h => by
    exfalso
    rw [segments_cons] at h
    exact sentinel_ne_entrySegment n d _ _ ((entriesBounded_cons n d p).mp hb1).1 h.symm
  | (n1, d1) :: p, (n2, d2) :: q, r1, r2, hb1, hb2, h => by
    obtain ⟨hn1, hd1, hp⟩ := (entriesBounded_cons n1 d1 p).mp hb1
    obtain ⟨hn2, hd2, hq⟩ := (entriesBounded_cons n2 d2 q).mp hb2
    rw [segments_cons, segments_cons] at h
    obtain ⟨he, hrest⟩ := entrySegment_unique n1 n2 d1 d2 _ _ hn1 hn2
      (fun r1 r2 => Data.bytes_unique d1 d2 r1 r2 hd1 hd2) h
    obtain ⟨h1, h2⟩ := entries_unique_sentinel p q r1 r2 hp hq hrest
    exact ⟨by rw [he, h1], h2⟩
/-- The entries of an ECMAArray are read back in one way, their number being known. -/
theorem entries_unique_count : ∀ (p q : List (List Byte × Data)) (r1 r2 : List Byte),
    entriesBounded p = true → entriesBounded q = true → p.length = q.length →
    (p.map entrySegment).flatten ++ r1 = (q.map entrySegment).flatten ++ r2 →
    p = q ∧ r1 = r2
  | [], [], r1, r2, _, _, _, h => ⟨rfl, h⟩
  | [], _ :: _, _, _, _, _, hl, _ => by simp at hl
  | _ :: _, [], _, _, _, _, hl, _ => by simp at hl
  | (n1, d1) :: p, (n2, d2) :: q, r1, r2, hb1, hb2, hl, h => by
    obtain ⟨hn1, hd1, hp⟩ := (entriesBounded_cons n1 d1 p).mp hb1
    obtain ⟨hn2, hd2, hq⟩ := (entriesBounded_cons n2 d2 q).mp hb2
    rw [segments_cons, segments_cons] at h
    obtain ⟨he, hrest⟩ := entrySegment_unique n1 n2 d1 d2 _ _ hn1 hn2
      (fun r1 r2 => Data.bytes_unique d1 d2 r1 r2 hd1 hd2) h
    obtain ⟨h1, h2⟩ := entries_unique_count p q r1 r2 hp hq (by simpa using hl) hrest
    exact ⟨by rw [he, h1], h2⟩
/-- The elements of a StrictArray are read back in one way, their number being known. -/
theorem elems_unique_count : ∀ (p q : List Data) (r1 r2 : List Byte),
    elemsBounded p = true → elemsBounded q = true → p.length = q.length →
    (p.map Data.bytes).flatten ++ r1 = (q.map Data.bytes).flatten ++ r2 →
    p = q ∧ r1 = r2
  | [], [], r1, r2, _, _, _, h => ⟨rfl, h⟩
  | [], _ :: _, _, _, _, _, hl, _ => by simp at hl
  | _ :: _, [], _, _, _, _, hl, _ => by simp at hl
  | d1 :: p, d2 :: q, r1, r2, hb1, hb2, hl, h => by
    obtain ⟨hd1, hp⟩ := (elemsBounded_cons d1 p).mp hb1
    obtain ⟨hd2, hq⟩ := (elemsBounded_cons d2 q).mp hb2
    rw [elements_cons, elements_cons] at h
    obtain ⟨he, hrest⟩ := Data.bytes_unique d1 d2 _ _ hd1 hd2 h
    obtain ⟨h1, h2⟩ := elems_unique_count p q r1 r2 hp hq (by simpa using hl) hrest
    exact ⟨by rw [he, h1], h2⟩
end

/-- C19: on trees in which every String is shorter than 2^32 bytes, every member name is at
most 65535 bytes long (the empty name included) and every ECMAArray and StrictArray has fewer
than 2^32 entries, the encoding is prefix-free: when the encoding of `v1` is a prefix of the
encoding of `v2`, the two trees, members taken in enumeration order, are equal. -/
theorem Encode_prefix_free (v1 v2 : Data) (h1 : v1.Bounded = true) (h2 : v2.Bounded = true)
    (h : (Data.Encode Buffer v1 []).1 <+: (Data.Encode Buffer v2 []).1) : v1 = v2 := by
  obtain ⟨t, ht⟩ := h
  have hb : v1.bytes ++ t = v2.bytes ++ [] := by
    rw [List.append_nil]
    exact ht
  exact (Data.bytes_unique v1 v2 t [] h1 h2 hb).1

theorem Encode_prefix_free_witness :
    (Data.Object [([], .Null), ([0x61], .StrictArray [.String [0x62], .ECMAArray []])]).Bounded
      = true
    ∧ (Data.Encode Buffer
        (.Object [([], .Null), ([0x61], .StrictArray [.String [0x62], .ECMAArray []])]) []).1
      <+: (Data.Encode Buffer
        (.Object [([], .Null), ([0x61], .StrictArray [.String [0x62], .ECMAArray []])]) []).1
    ∧ Data.Object [([], .Null), ([0x61], .StrictArray [.String [0x62], .ECMAArray []])]
      = Data.Object [([], .Null), ([0x61], .StrictArray [.String [0x62], .ECMAArray []])] :=
  ⟨by decide, List.prefix_refl _,
   Encode_prefix_free _ _ (by decide) (by decide) (List.prefix_refl _)⟩

/-! ## Injectivity -/

theorem entriesBounded_iff (p : List (List Byte × Data)) :
    entriesBounded p = true ↔ ∀ e ∈ p, e.1.length ≤ 65535 ∧ e.2.Bounded = true := by
  induction p with
  | nil => simp [entriesBounded]
  | cons e rest ih =>
    obtain ⟨n, d⟩ := e
    rw [entriesBounded_cons, ih]
    simp [and_assoc]

theorem entriesBounded_perm (q r : List (List Byte × Data)) (h : q.Perm r)
    (hq : entriesBounded q = true) : entriesBounded r = true := by
  rw [entriesBounded_iff] at hq ⊢
  exact fun e he => hq e (h.mem_iff.mpr he)

mutual
/-- The size bounds do not depend on the order in which maps are enumerated. -/
theorem Data.Bounded_of_SameValue : ∀ (d e : Data), d.SameValue e → d.Bounded = true →
    e.Bounded = true
  | .Number _, _, h, hb => by
    simp only [Data.SameValue] at h
    rw [h]; exact hb
  | .Boolean _, _, h, hb => by
    simp only [Data.SameValue] at h
    rw [h]; exact hb
  | .String _, _, h, hb => by
    simp only [Data.SameValue] at h
    rw [h]; exact hb
  | .Null, _, h, hb => by
    simp only [Data.SameValue] at h
    rw [h]; exact hb
  | .Undefined, _, h, hb => by
    simp only [Data.SameValue] at h
    rw [h]; exact hb
  | .Object p, e, h, hb => by
    simp only [Data.SameValue] at h
    obtain ⟨q, r, hpq, hqr, rfl⟩ := h
    simp only [Data.Bounded] at hb ⊢
    exact entriesBounded_perm q r hqr (entriesBounded_of_SameEntries p q hpq hb).1
  | .ECMAArray p, e, h, hb => by
    simp only [Data.SameValue] at h
    obtain ⟨q, r, hpq, hqr, rfl⟩ := h
    simp only [Data.Bounded, Bool.and_eq_true, decide_eq_true_eq] at hb ⊢
    obtain ⟨hq, hl⟩ := entriesBounded_of_SameEntries p q hpq hb.2
    exact ⟨by rw [← hqr.length_eq, hl]; exact hb.1, entriesBounded_perm q r hqr hq⟩
  | .StrictArray p, e, h, hb => by
    simp only [Data.SameValue] at h
    obtain ⟨q, hpq, rfl⟩ := h
    simp only [Data.Bounded, Bool.and_eq_true, decide_eq_true_eq] at hb ⊢
    obtain ⟨hq, hl⟩ := elemsBounded_of_SameElems p q hpq hb.2
    exact ⟨by rw [hl]; exact hb.1, hq⟩
theorem entriesBounded_of_SameEntries : ∀ (p q : List (List Byte × Data)),
    SameEntries p q → entriesBounded p = true → entriesBounded q = true ∧ q.length = p.length
  | [], _, h, _ => by
    simp only [SameEntries] at h
    rw [h]
    exact ⟨rfl, rfl⟩
  | (n, d) :: rest, q, h, hb => by
    simp only [SameEntries] at h
    obtain ⟨d', rest', hd, hr, rfl⟩ := h
    obtain ⟨hn, hd1, hrest⟩ := (entriesBounded_cons n d rest).mp hb
    obtain ⟨h1, h2⟩ := entriesBounded_of_SameEntries rest rest' hr hrest
    exact ⟨(entriesBounded_cons n d' rest').mpr ⟨hn, Data.Bounded_of_SameValue d d' hd hd1, h1⟩,
      by simp [h2]⟩
theorem elemsBounded_of_SameElems : ∀ (p q : List Data),
    SameElems p q → elemsBounded p = true → elemsBounded q = true ∧ q.length = p.length
  | [], _, h, _ => by
    simp only [SameElems] at h
    rw [h]
    exact ⟨rfl, rfl⟩
  | d :: rest, q, h, hb => by
    simp only [SameElems] at h
    obtain ⟨d', rest', hd, hr, rfl⟩ := h
    obtain ⟨hd1, hrest⟩ := (elemsBounded_cons d rest).mp hb
    obtain ⟨h1, h2⟩ := elemsBounded_of_SameElems rest rest' hr hrest
    exact ⟨(elemsBounded_cons d' rest').mpr ⟨Data.Bounded_of_SameValue d d' hd hd1, h1⟩,
      by simp [h2]⟩
end

/-- C13, as the code has it: for two values in which every String is shorter than 2^32 bytes,
every member name is at most 65535 bytes long and every ECMAArray and StrictArray has fewer
than 2^32 entries, if an encoding of the first (under some enumeration `e1` of its maps)
equals an encoding of the second (under some enumeration `e2`), then the two enumerations are
the same tree, so the two values are the same up to the order of map members. The StrictArrays
`[Number(1), Boolean(true)]` and `[Boolean(true), Number(1)]` have different encodings. -/
theorem Encode_injective (d1 d2 e1 e2 : Data) (hb1 : d1.Bounded = true)
    (hb2 : d2.Bounded = true) (h1 : d1.SameValue e1) (h2 : d2.SameValue e2)
    (h : (Data.Encode Buffer e1 []).1 = (Data.Encode Buffer e2 []).1) :
    e1 = e2
    ∧ (∃ e, d1.SameValue e ∧ d2.SameValue e)
    ∧ (Data.Encode Buffer (.StrictArray [.Number 0x3FF0000000000000, .Boolean true]) []).1
        ≠ (Data.Encode Buffer (.StrictArray [.Boolean true, .Number 0x3FF0000000000000]) []).1 := by
  have he1 := Data.Bounded_of_SameValue d1 e1 h1 hb1
  have he2 := Data.Bounded_of_SameValue d2 e2 h2 hb2
  have hb : e1.bytes ++ [] = e2.bytes ++ [] := by
    rw [List.append_nil, List.append_nil]
    exact h
  have heq : e1 = e2 := (Data.bytes_unique e1 e2 [] [] he1 he2 hb).1
  exact ⟨heq, ⟨e2, heq ▸ h1, h2⟩, by decide⟩

theorem Encode_injective_witness :
    Data.Object [([0x62], .Null), ([0x61], .Null)]
      = Data.Object [([0x62], .Null), ([0x61], .Null)]
    ∧ ∃ e, (Data.Object [([0x61], .Null), ([0x62], .Null)]).SameValue e
        ∧ (Data.Object [([0x62], .Null), ([0x61], .Null)]).SameValue e :=
  have h := Encode_injective
    (.Object [([0x61], .Null), ([0x62], .Null)]) (.Object [([0x62], .Null), ([0x61], .Null)])
    (.Object [([0x62], .Null), ([0x61], .Null)]) (.Object [([0x62], .Null), ([0x61], .Null)])
    (by decide) (by decide)
    (by
      simp only [Data.SameValue, SameEntries]
      exact ⟨[([0x61], .Null), ([0x62], .Null)], [([0x62], .Null), ([0x61], .Null)],
        ⟨.Null, [([0x62], .Null)], rfl, ⟨.Null, [], rfl, rfl, rfl⟩, rfl⟩,
        List.Perm.swap _ _ _, rfl⟩)
    (by
      simp only [Data.SameValue, SameEntries]
      exact ⟨[([0x62], .Null), ([0x61], .Null)], [([0x62], .Null), ([0x61], .Null)],
        ⟨.Null, [([0x61], .Null)], rfl, ⟨.Null, [], rfl, rfl, rfl⟩, rfl⟩,
        List.Perm.refl _, rfl⟩)
    rfl
  ⟨h.1, h.2.1⟩

/-- Two member names of 65536 bytes that differ in their last byte only get the same header,
so the two single-member Objects are different values with one encoding. -/
theorem truncated_names_collide (n : List Byte) (x y : Byte) (hn : n.length = 65535)
    (hxy : x ≠ y) :
    (Data.Object [(n ++ [x], .Null)]).SameValue (.Object [(n ++ [x], .Null)])
    ∧ (Data.Object [(n ++ [y], .Null)]).SameValue (.Object [(n ++ [y], .Null)])
    ∧ (Data.Encode Buffer (.Object [(n ++ [x], .Null)]) []).1
        = (Data.Encode Buffer (.Object [(n ++ [y], .Null)]) []).1
    ∧ ¬ ∃ e, (Data.Object [(n ++ [x], .Null)]).SameValue e
        ∧ (Data.Object [(n ++ [y], .Null)]).SameValue e := by
  have hself : ∀ m : List Byte,
      (Data.Object [(m, .Null)]).SameValue (.Object [(m, .Null)]) := fun m => by
    simp only [Data.SameValue, SameEntries]
    exact ⟨[(m, .Null)], [(m, .Null)], ⟨.Null, [], rfl, rfl, rfl⟩, List.Perm.refl _, rfl⟩
  have hhead : ∀ z : Byte, utf8Header (n ++ [z]) = putUint16 65535 ++ n := fun z => by
    have hl : (n ++ [z]).length = 65536 := by rw [List.length_append, hn]; rfl
    rw [utf8Header_bytes, hl]
    have hmin : min 65536 65535 = 65535 := by decide
    rw [hmin, List.take_left' hn]
  refine ⟨hself _, hself _, ?_, ?_⟩
  · show (Data.Object [(n ++ [x], .Null)]).bytes = (Data.Object [(n ++ [y], .Null)]).bytes
    rw [Object_bytes, Object_bytes]
    simp only [List.map_cons, List.map_nil, entrySegment, hhead]
  · rintro ⟨e, hx, hy⟩
    have h1 := Data.SameValue_eq _ e hx rfl
    have h2 := Data.SameValue_eq _ e hy rfl
    rw [h1] at h2
    simp only [Data.Object.injEq, List.cons.injEq, Prod.mk.injEq, List.append_cancel_left_eq,
      and_true] at h2
    exact hxy h2

/-- C13 fails as stated: the member names of 65535 bytes `a` followed by `b`, and by `c`, are
cut to the same 65535 bytes, so the two Objects, which are not the same value in any
enumeration, are encoded to the same bytes. -/
theorem Encode_injective_counterexample :
    (Data.Encode Buffer (.Object [(List.replicate 65535 0x61 ++ [0x62], .Null)]) []).1
        = (Data.Encode Buffer (.Object [(List.replicate 65535 0x61 ++ [0x63], .Null)]) []).1
    ∧ ¬ ∃ e, (Data.Object [(List.replicate 65535 0x61 ++ [0x62], .Null)]).SameValue e
        ∧ (Data.Object [(List.replicate 65535 0x61 ++ [0x63], .Null)]).SameValue e :=
  (truncated_names_collide (List.replicate 65535 0x61) 0x62 0x63
    (List.length_replicate _ _) (by decide)).2.2

/-! ## Enumeration order -/

mutual
/-- Two enumerations of one value are encoded to the same number of bytes. -/
theorem Data.bytes_length_of_SameValue : ∀ (d e : Data), d.SameValue e →
    e.bytes.length = d.bytes.length
  | .Number _, _, h => by
    simp only [Data.SameValue] at h
    rw [h]
  | .Boolean _, _, h => by
    simp only [Data.SameValue] at h
    rw [h]
  | .String _, _, h => by
    simp only [Data.SameValue] at h
    rw [h]
  | .Null, _, h => by
    simp only [Data.SameValue] at h
    rw [h]
  | .Undefined, _, h => by
    simp only [Data.SameValue] at h
    rw [h]
  | .Object p, e, h => by
    simp only [Data.SameValue] at h
    obtain ⟨q, r, hpq, hqr, rfl⟩ := h
    have h1 := (segments_length_of_SameEntries p q hpq).1
    have h2 : (r.map entrySegment).flatten.length = (q.map entrySegment).flatten.length :=
      ((hqr.map entrySegment).flatten.length_eq).symm
    rw [Object_bytes, Object_bytes]
    simp only [List.length_append, h2, h1]
  | .ECMAArray p, e, h => by
    simp only [Data.SameValue] at h
    obtain ⟨q, r, hpq, hqr, rfl⟩ := h
    have h1 := (segments_length_of_SameEntries p q hpq).1
    have h2 : (r.map entrySegment).flatten.length = (q.map entrySegment).flatten.length :=
      ((hqr.map entrySegment).flatten.length_eq).symm
    rw [ECMAArray_bytes, ECMAArray_bytes]
    simp only [List.length_append, h2, h1]
    rfl
  | .StrictArray p, e, h => by
    simp only [Data.SameValue] at h
    obtain ⟨q, hpq, rfl⟩ := h
    have h1 := elements_length_of_SameElems p q hpq
    rw [StrictArray_bytes, StrictArray_bytes]
    simp only [List.length_append, h1]
    rfl
theorem segments_length_of_SameEntries : ∀ (p q : List (List Byte × Data)), SameEntries p q →
    (q.map entrySegment).flatten.length = (p.map entrySegment).flatten.length
      ∧ q.length = p.length
  | [], _, h => by
    simp only [SameEntries] at h
    rw [h]
    exact ⟨rfl, rfl⟩
  | (n, d) :: rest, q, h => by
    simp only [SameEntries] at h
    obtain ⟨d', rest', hd, hr, rfl⟩ := h
    obtain ⟨h1, h2⟩ := segments_length_of_SameEntries rest rest' hr
    have h3 := Data.bytes_length_of_SameValue d d' hd
    simp only [List.map_cons, List.flatten_cons, List.length_append, List.length_cons,
      entrySegment, h1, h2, h3, and_self]
theorem elements_length_of_SameElems : ∀ (p q : List Data), SameElems p q →
    (q.map Data.bytes).flatten.length = (p.map Data.bytes).flatten.length
  | [], _, h => by
    simp only [SameElems] at h
    rw [h]
  | d :: rest, q, h => by
    simp only [SameElems] at h
    obtain ⟨d', rest', hd, hr, rfl⟩ := h
    have h1 := elements_length_of_SameElems rest rest' hr
    have h3 := Data.bytes_length_of_SameValue d d' hd
    simp only [List.map_cons, List.flatten_cons, List.length_append, h1, h3]
end

/-- Entry by entry, two enumerations of the same entries have the same names, values that are
enumerations of one value, and value encodings of the same length. -/
theorem SameEntries_pointwise : ∀ (p q : List (List Byte × Data)), SameEntries p q →
    List.Forall₂
      (fun a b => a.1 = b.1 ∧ a.2.SameValue b.2 ∧ a.2.bytes.length = b.2.bytes.length) p q
  | [], _, h => by
    simp only [SameEntries] at h
    rw [h]
    exact List.Forall₂.nil
  | (n, d) :: rest, q, h => by
    simp only [SameEntries] at h
    obtain ⟨d', rest', hd, hr, rfl⟩ := h
    exact List.Forall₂.cons ⟨rfl, hd, (Data.bytes_length_of_SameValue d d' hd).symm⟩
      (SameEntries_pointwise rest rest' hr)

/-- C9, as the code has it: let `p` and `r` be two enumerations of one map of `N` members, the
order of its own members and of the members of every map nested in their values being open in
each. The encodings of the Object (and of the ECMAArray) are the same prefix, `N` member
segments (name header, then value) and the same suffix, and have the same length. The segments
of `r` are a permutation of the segments of an entry list `q` that has, entry by entry, the
names of `p` with values that are enumerations of the values of `p`, encoded to the same
length. When no member value holds an Object or ECMAArray with two or more members, or when
`r` merely reorders the entries of `p`, the segments of `p` are a permutation of the segments
of `r`. -/
theorem Encode_enumeration_order (p r : List (List Byte × Data))
    (h : (Data.Object p).SameValue (.Object r)) :
    (Data.ECMAArray p).SameValue (.ECMAArray r)
    ∧ (Data.Object p).bytes
      = [0x03] ++ (p.map fun e => utf8Header e.1 ++ e.2.bytes).flatten ++ [0x00, 0x00, 0x09]
    ∧ (Data.Object r).bytes
      = [0x03] ++ (r.map fun e => utf8Header e.1 ++ e.2.bytes).flatten ++ [0x00, 0x00, 0x09]
    ∧ (Data.ECMAArray p).bytes
      = [0x08] ++ putUint32 (p.length % 4294967296)
          ++ (p.map fun e => utf8Header e.1 ++ e.2.bytes).flatten ++ []
    ∧ (Data.ECMAArray r).bytes
      = [0x08] ++ putUint32 (p.length % 4294967296)
          ++ (r.map fun e => utf8Header e.1 ++ e.2.bytes).flatten ++ []
    ∧ (p.map fun e => utf8Header e.1 ++ e.2.bytes).length = p.length
    ∧ (r.map fun e => utf8Header e.1 ++ e.2.bytes).length = p.length
    ∧ (Data.Object p).bytes.length = (Data.Object r).bytes.length
    ∧ (Data.ECMAArray p).bytes.length = (Data.ECMAArray r).bytes.length
    ∧ (∃ q : List (List Byte × Data),
        List.Forall₂
          (fun a b => a.1 = b.1 ∧ a.2.SameValue b.2 ∧ a.2.bytes.length = b.2.bytes.length) p q
        ∧ (q.map fun e => utf8Header e.1 ++ e.2.bytes).Perm
            (r.map fun e => utf8Header e.1 ++ e.2.bytes))
    ∧ (entriesFixedOrder p = true →
        (p.map fun e => utf8Header e.1 ++ e.2.bytes).Perm
          (r.map fun e => utf8Header e.1 ++ e.2.bytes))
    ∧ (p.Perm r →
        (p.map fun e => utf8Header e.1 ++ e.2.bytes).Perm
          (r.map fun e => utf8Header e.1 ++ e.2.bytes)) := by
  have hE : (Data.ECMAArray p).SameValue (.ECMAArray r) := by
    simp only [Data.SameValue, Data.Object.injEq, Data.ECMAArray.injEq] at h ⊢
    exact h
  have hlenO := Data.bytes_length_of_SameValue _ _ h
  have hlenE := Data.bytes_length_of_SameValue _ _ hE
  simp only [Data.SameValue, Data.Object.injEq] at h
  obtain ⟨q, r', hpq, hqr, hr⟩ := h
  subst hr
  have hqp : q.length = p.length := (segments_length_of_SameEntries p q hpq).2
  have hrp : r.length = p.length := by rw [← hqr.length_eq, hqp]
  have hsegqr : (q.map entrySegment).Perm (r.map entrySegment) := hqr.map _
  refine ⟨hE, Object_bytes p, Object_bytes r, ?_, ?_, List.length_map _ _, ?_, hlenO.symm,
    hlenE.symm, ⟨q, SameEntries_pointwise p q hpq, hsegqr⟩, ?_, fun hp => hp.map _⟩
  · rw [ECMAArray_bytes, List.append_nil]
    rfl
  · rw [ECMAArray_bytes, List.append_nil, hrp]
    rfl
  · rw [List.length_map, hrp]
  · intro hf
    have hq : q = p := SameEntries_eq p q hpq hf
    rw [hq] at hsegqr
    exact hsegqr

theorem Encode_enumeration_order_witness :
    (Data.Object [([0x74, 0x65, 0x73, 0x74], .Boolean true),
        ([0x74, 0x65, 0x73, 0x74, 0x32], .Object [([0x61], .Null), ([0x62], .Null)])]).bytes.length
      = (Data.Object [([0x74, 0x65, 0x73, 0x74, 0x32], .Object [([0x62], .Null), ([0x61], .Null)]),
        ([0x74, 0x65, 0x73, 0x74], .Boolean true)]).bytes.length
    ∧ ([([0x74, 0x65, 0x73, 0x74], Data.Boolean true),
        ([0x74, 0x65, 0x73, 0x74, 0x32], Data.Boolean false)].map
        fun e => utf8Header e.1 ++ e.2.bytes).Perm
      ([([0x74, 0x65, 0x73, 0x74, 0x32], Data.Boolean false),
        ([0x74, 0x65, 0x73, 0x74], Data.Boolean true)].map
        fun e => utf8Header e.1 ++ e.2.bytes) :=
  ⟨(Encode_enumeration_order
      [([0x74, 0x65, 0x73, 0x74], .Boolean true),
        ([0x74, 0x65, 0x73, 0x74, 0x32], .Object [([0x61], .Null), ([0x62], .Null)])]
      [([0x74, 0x65, 0x73, 0x74, 0x32], .Object [([0x62], .Null), ([0x61], .Null)]),
        ([0x74, 0x65, 0x73, 0x74], .Boolean true)]
      (by
        simp only [Data.SameValue, SameEntries]
        exact ⟨[([0x74, 0x65, 0x73, 0x74], .Boolean true),
            ([0x74, 0x65, 0x73, 0x74, 0x32], .Object [([0x62], .Null), ([0x61], .Null)])], _,
          ⟨_, _, rfl,
            ⟨_, _, ⟨[([0x61], .Null), ([0x62], .Null)], _,
                ⟨_, _, rfl, ⟨_, _, rfl, rfl, rfl⟩, rfl⟩, List.Perm.swap _ _ _, rfl⟩,
              rfl, rfl⟩,
            rfl⟩,
          List.Perm.swap _ _ _, rfl⟩)).2.2.2.2.2.2.2.1,
   (Encode_enumeration_order
      [([0x74, 0x65, 0x73, 0x74], .Boolean true),
        ([0x74, 0x65, 0x73, 0x74, 0x32], .Boolean false)]
      [([0x74, 0x65, 0x73, 0x74, 0x32], .Boolean false),
        ([0x74, 0x65, 0x73, 0x74], .Boolean true)]
      (by
        simp only [Data.SameValue, SameEntries]
        exact ⟨[([0x74, 0x65, 0x73, 0x74], .Boolean true),
            ([0x74, 0x65, 0x73, 0x74, 0x32], .Boolean false)], _,
          ⟨_, _, rfl, ⟨_, _, rfl, rfl, rfl⟩, rfl⟩, List.Perm.swap _ _ _, rfl⟩)).2.2.2.2.2.2.2.2.2.2.1
      (by decide)⟩

/-- C9 fails as stated: the Object with the single member "a", whose value is the Object with
members "x" and "y", is one value whether the inner Object is enumerated "x", "y" or "y", "x".
Each encoding has one member segment, the two segments differ, so the segments of one are not
a permutation of the segments of the other, and the outputs differ by more than the order of
their segments. The same holds for the ECMAArray. -/
theorem Encode_enumeration_order_counterexample :
    (Data.Object [([0x61], .Object [([0x78], .Null), ([0x79], .Null)])]).SameValue
        (.Object [([0x61], .Object [([0x79], .Null), ([0x78], .Null)])])
    ∧ (Data.ECMAArray [([0x61], .Object [([0x78], .Null), ([0x79], .Null)])]).SameValue
        (.ECMAArray [([0x61], .Object [([0x79], .Null), ([0x78], .Null)])])
    ∧ ([([0x61], Data.Object [([0x78], .Null), ([0x79], .Null)])].map
          fun e => utf8Header e.1 ++ e.2.bytes)
        = [[0x00, 0x01, 0x61, 0x03, 0x00, 0x01, 0x78, 0x05, 0x00, 0x01, 0x79, 0x05,
            0x00, 0x00, 0x09]]
    ∧ ([([0x61], Data.Object [([0x79], .Null), ([0x78], .Null)])].map
          fun e => utf8Header e.1 ++ e.2.bytes)
        = [[0x00, 0x01, 0x61, 0x03, 0x00, 0x01, 0x79, 0x05, 0x00, 0x01, 0x78, 0x05,
            0x00, 0x00, 0x09]]
    ∧ ¬ ([([0x61], Data.Object [([0x78], .Null), ([0x79], .Null)])].map
          fun e => utf8Header e.1 ++ e.2.bytes).Perm
        ([([0x61], Data.Object [([0x79], .Null), ([0x78], .Null)])].map
          fun e => utf8Header e.1 ++ e.2.bytes)
    ∧ (Data.Encode Buffer (.Object [([0x61], .Object [([0x78], .Null), ([0x79], .Null)])]) []).1
        ≠ (Data.Encode Buffer
            (.Object [([0x61], .Object [([0x79], .Null), ([0x78], .Null)])]) []).1 := by
  have hs : SameEntries [([0x61], Data.Object [([0x78], .Null), ([0x79], .Null)])]
      [([0x61], Data.Object [([0x79], .Null), ([0x78], .Null)])] := by
    simp only [SameEntries, Data.SameValue]
    exact ⟨_, _, ⟨[([0x78], .Null), ([0x79], .Null)], _,
      ⟨_, _, rfl, ⟨_, _, rfl, rfl, rfl⟩, rfl⟩, List.Perm.swap _ _ _, rfl⟩, rfl, rfl⟩
  refine ⟨?_, ?_, by decide, by decide, ?_, by decide⟩
  · simp only [Data.SameValue]
    exact ⟨_, _, hs, List.Perm.refl _, rfl⟩
  · simp only [Data.SameValue]
    exact ⟨_, _, hs, List.Perm.refl _, rfl⟩
  · simp only [List.map_cons, List.map_nil, List.singleton_perm_singleton]
    decide

end AMF0
